import Mathlib

/-!
Verification of the Puzzle Contract Engine (coding-contract registry).

The definitions below are a shallow embedding of the per-kind generator /
solver code of the registry.  JavaScript numbers that the code only ever uses
at integral values are modelled as `Int`/`Nat` (all arithmetic in the embedded
paths is exact at the magnitudes the generators produce); JavaScript `NaN`
results of `parseInt` are modelled as `Option.none`; a thrown exception is
modelled as `Option.none` at the solver level.  String processing follows the
JavaScript code character-for-character on the relevant alphabet.
-/

namespace Contracts

/-- JavaScript whitespace as matched by `\s` and skipped by `parseInt` /
`BigInt` (space, tab, LF, CR, VT, FF; the exotic Unicode space code points are
omitted since no generator nor comparison in the registry produces them). -/
def isJsWs (c : Char) : Bool :=
  c = ' ' || c = '\t' || c = '\n' || c = '\r' || c = '\x0b' || c = '\x0c'

/-- Embedding of `removeBracketsFromArrayString` at the character-list level:
strip at most one leading `[` and at most one trailing `]`. -/
def removeBracketsL (cs : List Char) : List Char :=
  let cs1 := if cs.head? = some '[' then cs.tail else cs
  if cs1.getLast? = some ']' then cs1.dropLast else cs1

/-- Embedding of `removeBracketsFromArrayString`. -/
def removeBracketsFromArrayString (s : String) : String :=
  String.mk (removeBracketsL s.toList)

/-- Embedding of `removeQuotesFromString` at the character-list level: strip
at most one leading and at most one trailing quote character (`"` or `'`). -/
def removeQuotesL (cs : List Char) : List Char :=
  let cs1 := if cs.head? = some '"' ∨ cs.head? = some '\x27' then cs.tail else cs
  if cs1.getLast? = some '"' ∨ cs1.getLast? = some '\x27' then cs1.dropLast else cs1

/-- Embedding of `str.replace(/\s/g, "")`. -/
def stripWsL (cs : List Char) : List Char :=
  cs.filter (fun c => !isJsWs c)

/-- Embedding of `str.split(",")`: JavaScript split never returns an empty
element list — splitting the empty string yields `[""]`. -/
def splitOnComma : List Char → List (List Char)
  | [] => [[]]
  | c :: rest =>
    if c = ',' then [] :: splitOnComma rest
    else
      match splitOnComma rest with
      | g :: gs => (c :: g) :: gs
      | [] => [[c]]

/-- Numeric value of a decimal digit character. -/
def digitVal (c : Char) : Nat := c.toNat - 48

/-- Value of a most-significant-first decimal digit string. -/
def decimalValue (ds : List Char) : Nat :=
  ds.foldl (fun a c => 10 * a + digitVal c) 0

/-- Value of a least-significant-first decimal digit string. -/
def decimalValueRev (ds : List Char) : Nat :=
  ds.foldr (fun c a => digitVal c + 10 * a) 0

/-- Shared core of the `parseInt` models: the maximal leading run of decimal
digits, `none` when there is no leading digit (JavaScript `NaN`). -/
def parseIntCore (cs : List Char) : Option Nat :=
  let ds := cs.takeWhile Char.isDigit
  if ds.isEmpty then none else some (decimalValue ds)

/-- Sign handling of the radix-10 `parseInt` model, after whitespace
skipping. -/
def parseSignedDec : List Char → Option Int
  | [] => none
  | c :: rest =>
    if c = '-' then (parseIntCore rest).map (fun n => -(n : Int))
    else if c = '+' then (parseIntCore rest).map (fun n => (n : Int))
    else (parseIntCore (c :: rest)).map (fun n => (n : Int))

/-- Model of JavaScript `parseInt(s, 10)` on a character list: skip leading
whitespace, then an optional sign, then the maximal run of decimal digits;
`none` (`NaN`) when no digit follows.  Trailing garbage after the digits is
ignored. -/
def parseIntJS10L (cs : List Char) : Option Int :=
  parseSignedDec (cs.dropWhile isJsWs)

/-- Model of JavaScript `parseInt(s, 10)`. -/
def parseIntJS10 (s : String) : Option Int :=
  parseIntJS10L s.toList

/-- Hexadecimal digit test, for the radix-autodetecting `parseInt` model. -/
def isHexDigitJS (c : Char) : Bool :=
  c.isDigit || ('a' ≤ c && c ≤ 'f') || ('A' ≤ c && c ≤ 'F')

/-- Value of a hexadecimal digit character. -/
def hexVal (c : Char) : Nat :=
  if c.isDigit then c.toNat - 48
  else if 'a' ≤ c && c ≤ 'f' then c.toNat - 87
  else c.toNat - 55

/-- Value of a most-significant-first hexadecimal digit string. -/
def hexValue (ds : List Char) : Nat :=
  ds.foldl (fun a c => 16 * a + hexVal c) 0

/-- Unsigned core of radix-autodetecting `parseInt`: a `0x`/`0X` head selects
hexadecimal, otherwise decimal. -/
def parseIntJSCore (cs : List Char) : Option Nat :=
  match cs with
  | '0' :: x :: rest =>
    if x = 'x' || x = 'X' then
      let ds := rest.takeWhile isHexDigitJS
      if ds.isEmpty then none else some (hexValue ds)
    else parseIntCore cs
  | _ => parseIntCore cs

/-- Sign handling of the radix-autodetecting `parseInt` model. -/
def parseSignedJS : List Char → Option Int
  | [] => none
  | c :: rest =>
    if c = '-' then (parseIntJSCore rest).map (fun n => -(n : Int))
    else if c = '+' then (parseIntJSCore rest).map (fun n => (n : Int))
    else (parseIntJSCore (c :: rest)).map (fun n => (n : Int))

/-- Model of JavaScript `parseInt(s)` with no radix argument, on a character
list: like `parseIntJS10L` but a `0x`/`0X` head after the sign selects
hexadecimal. -/
def parseIntJSL (cs : List Char) : Option Int :=
  parseSignedJS (cs.dropWhile isJsWs)

/-- Model of JavaScript `parseInt(s)` with no radix argument. -/
def parseIntJS (s : String) : Option Int :=
  parseIntJSL s.toList

/-- Little-endian decimal digit characters, fuelled so that the definition
reduces by iota (any fuel at least the digit count gives the same value; the
wrapper below passes `n` itself, which always suffices). -/
def natDigitsRevAux : Nat → Nat → List Char
  | 0, _ => []
  | fuel + 1, n => if n = 0 then [] else Nat.digitChar (n % 10) :: natDigitsRevAux fuel (n / 10)

/-- Little-endian decimal digit characters of a natural number (empty for 0). -/
def natDigitsRev (n : Nat) : List Char := natDigitsRevAux n n

/-- Decimal digit characters of a natural number, most significant first;
this models `Number.prototype.toString` / `BigInt.prototype.toString` on
non-negative integral values. -/
def natToStrList (n : Nat) : List Char :=
  if n = 0 then ['0'] else (natDigitsRev n).reverse

/-- Decimal text of an integer, modelling JavaScript `toString` on integral
values (a `-` sign followed by the digits of the absolute value). -/
def intToStrList (i : Int) : List Char :=
  if i < 0 then '-' :: natToStrList i.natAbs else natToStrList i.natAbs

/-- String form of `intToStrList`. -/
def intToStr (i : Int) : String := String.mk (intToStrList i)

/-! ## Find Largest Prime Factor -/

/-- Inner `while (n % fac === 0) n = Math.round(n / fac)` loop of the
Find Largest Prime Factor solver: divide `fac` out of `n` completely.  The
guards `2 ≤ fac` and `0 < n` always hold where the code runs this loop (the
outer loop condition forces `n > (fac-1)^2 ≥ 1` and `fac` starts at 2). -/
def lpfDivOutAux : Nat → Nat → Nat → Nat
  | 0, _, n => n
  | fuel + 1, fac, n =>
    if 2 ≤ fac ∧ n % fac = 0 ∧ 0 < n then lpfDivOutAux fuel fac (n / fac) else n

def lpfDivOut (fac : Nat) (n : Nat) : Nat := lpfDivOutAux n fac n

/-- Outer `while (n > (fac - 1) * (fac - 1))` loop, fuelled.  The loop body
runs at most `data` times (each iteration increments `fac`, and the loop
condition forces `fac - 1 < n ≤ data`), so the fuel `data + 2` used below
never runs out. -/
def lpfLoop : Nat → Nat → Nat → Nat × Nat
  | 0, fac, n => (fac, n)
  | fuel + 1, fac, n =>
    if (fac - 1) * (fac - 1) < n then lpfLoop fuel (fac + 1) (lpfDivOut fac n)
    else (fac, n)

/-- Value the Find Largest Prime Factor solver computes from the state and
compares the submitted answer against: `n === 1 ? fac - 1 : n`. -/
def lpfValue (data : Nat) : Nat :=
  let r := lpfLoop (data + 2) 2 data
  if r.2 = 1 then r.1 - 1 else r.2

/-- Embedding of the Find Largest Prime Factor solver:
`(n === 1 ? fac - 1 : n) === parseInt(ans, 10)`.  A `NaN` parse (`none`)
compares unequal to every number. -/
def largestPrimeFactorSolver (data : Nat) (ans : String) : Bool :=
  match parseIntJS10 ans with
  | some v => ((lpfValue data : Int) == v)
  | none => false

/-! ## Algorithmic Stock Trader I -/

/-- The `maxCur`/`maxSoFar` loop of the Stock Trader I solver, walking the
price list with the previous price carried along. -/
def st1Loop : Int → Int → Int → List Int → Int
  | _, _, maxSoFar, [] => maxSoFar
  | prev, maxCur, maxSoFar, p :: rest =>
    let mc := max 0 (maxCur + (p - prev))
    st1Loop p mc (max mc maxSoFar) rest

/-- Value computed by the Stock Trader I solver (maximum single-transaction
profit, Kadane-style). -/
def stockTrader1Value (data : List Int) : Int :=
  match data with
  | [] => 0
  | p :: rest => st1Loop p 0 0 rest

/-- Embedding of the Stock Trader I solver: `maxSoFar.toString() === ans` —
a literal text comparison, not a numeric parse. -/
def stockTrader1Solver (data : List Int) (ans : String) : Bool :=
  intToStr (stockTrader1Value data) == ans

/-! ## Total Ways to Sum -/

/-- A JavaScript value as seen by the Total Ways to Sum solver: an (integral)
number or something of another runtime type.  Non-integral numbers are not
representable here; no generator produces them. -/
inductive JSData where
  | num (n : Int)
  | other
deriving DecidableEq

/-- The partition-counting table of the Total Ways to Sum solver:
`ways = [1, 0, …, 0]`, then `for i in [1, d): for j in [i, d]:
ways[j] += ways[j - i]`, returning `ways[d]`. -/
def twtsWays (d : Nat) : Nat :=
  let init : List Nat := 1 :: List.replicate d 0
  let final := (List.range' 1 (d - 1)).foldl
    (fun w i => (List.range' i (d + 1 - i)).foldl
      (fun w j => w.set j (w.getD j 0 + w.getD (j - i) 0)) w) init
  final.getD d 0

/-- Embedding of the Total Ways to Sum solver.  `none` models a thrown
exception: the explicit `throw` for a non-number state, and the `RangeError`
from `ways.length = data + 1` when that length is negative.  For `data = -1`
the array is empty and `ways[data]` is `undefined`, which compares unequal to
every number. -/
def totalWaysToSumSolver : JSData → String → Option Bool
  | .other, _ => none
  | .num d, ans =>
    if d + 1 < 0 then none
    else if d < 0 then some false
    else some (match parseIntJS10 ans with
      | none => false
      | some v => ((twtsWays d.toNat : Int) == v))

/-! ## Algorithmic Stock Trader IV -/

/-- `Number.MIN_SAFE_INTEGER`. -/
def minSafeNeg : Int := -(2 ^ 53 - 1)

/-- Sum of the positive adjacent price differences, as accumulated by the
`res += Math.max(prices[i] - prices[i-1], 0)` loop (and by the Stock Trader II
solver). -/
def sumPosDiffs : Int → List Int → Int
  | _, [] => 0
  | prev, p :: rest => max (p - prev) 0 + sumPosDiffs p rest

/-- Value of the `k > len / 2` special-cased branch of the Stock Trader IV
solver. -/
def stockIVGreedy : List Int → Int
  | [] => 0
  | p :: rest => sumPosDiffs p rest

/-- Pointwise update of a table represented as a function. -/
def fnUpdate (f : Nat → Int) (j : Nat) (v : Int) : Nat → Int :=
  fun i => if i = j then v else f i

/-- The inner `for (let j = k; j > 0; --j)` loop of the Stock Trader IV
general branch: at index `j`, `rele[j] = max(rele[j], hold[j] + cur)` and then
`hold[j] = max(hold[j], rele[j-1] - cur)` (the read of `rele[j-1]` sees the
value from before this price iteration, because `j` descends). -/
def stIVInner (cur : Int) : Nat → (Nat → Int) → (Nat → Int) → (Nat → Int) × (Nat → Int)
  | 0, hold, rele => (hold, rele)
  | j + 1, hold, rele =>
    let rele2 := fnUpdate rele (j + 1) (max (rele (j + 1)) (hold (j + 1) + cur))
    let hold2 := fnUpdate hold (j + 1) (max (hold (j + 1)) (rele2 j - cur))
    stIVInner cur j hold2 rele2

/-- The outer `for (let i = 0; i < len; ++i)` loop over the prices. -/
def stIVOuter (k : Nat) : List Int → (Nat → Int) → (Nat → Int) → (Nat → Int) × (Nat → Int)
  | [], hold, rele => (hold, rele)
  | p :: rest, hold, rele =>
    let hr := stIVInner p k hold rele
    stIVOuter k rest hr.1 hr.2

/-- Final `rele[k]` of the Stock Trader IV dynamic program, from the
initialization `hold[i] = Number.MIN_SAFE_INTEGER`, `rele[i] = 0`. -/
def stIVRele (k : Nat) (prices : List Int) : Int :=
  (stIVOuter k prices (fun _ => minSafeNeg) (fun _ => 0)).2 k

/-- Embedding of the Stock Trader IV solver.  `k > len / 2` over JavaScript
numbers with integral `k`, `len` is exactly `len < 2 * k`. -/
def stockTraderIVSolver (state : Nat × List Int) (ans : String) : Bool :=
  let k := state.1
  let prices := state.2
  let len := prices.length
  if len < 2 then parseIntJS ans == some 0
  else if len < 2 * k then parseIntJS ans == some (stockIVGreedy prices)
  else parseIntJS ans == some (stIVRele k prices)

/-- Variant of the Stock Trader IV solver with the `k > len / 2` special case
removed, always running the general dynamic program (used to state the
branch-equivalence claim). -/
def stockTraderIVSolverGeneral (state : Nat × List Int) (ans : String) : Bool :=
  let k := state.1
  let prices := state.2
  if prices.length < 2 then parseIntJS ans == some 0
  else parseIntJS ans == some (stIVRele k prices)

/-- Model of `BigInt(s)` restricted to the shapes the engine produces: after
trimming whitespace, an empty string means `0n`, otherwise an optional sign
followed by nothing but decimal digits; any other character makes the
constructor throw, modelled as `none`.  (The hex/octal/binary literal forms
accepted by `BigInt` are omitted: no generator state uses them.) -/
def parseBigIntList : List Char → Option Int
  | [] => some 0
  | c :: rest =>
    if c = '-' then
      if rest ≠ [] ∧ rest.all Char.isDigit then some (-(decimalValue rest : Int)) else none
    else if c = '+' then
      if rest ≠ [] ∧ rest.all Char.isDigit then some ((decimalValue rest : Int)) else none
    else if (c :: rest).all Char.isDigit then some ((decimalValue (c :: rest) : Int)) else none

def parseBigInt (s : String) : Option Int :=
  parseBigIntList (((s.toList.dropWhile isJsWs).reverse.dropWhile isJsWs).reverse)

/-! ## Shortest Path in a Grid -/

/-- Grid positions, `(row, column)`; coordinates may go negative while probing
neighbours or following an answer path. -/
abbrev Pos := Int × Int

/-- Height of a grid (`data.length`). -/
def gridHeight (g : List (List Nat)) : Nat := g.length

/-- Width of a grid (`data[0].length`; an empty grid gives 0). -/
def gridWidth (g : List (List Nat)) : Nat := (g.headD []).length

/-- Embedding of `validPosition(y, x)`: in bounds and the cell holds 0.  An
in-bounds column index beyond a (jagged) row's actual length reads a default 1
here, matching `undefined == 0` being false in JavaScript. -/
def validPos (g : List (List Nat)) (y x : Int) : Bool :=
  0 ≤ y && y < (gridHeight g : Int) && 0 ≤ x && x < (gridWidth g : Int) &&
    ((g.getD y.toNat []).getD x.toNat 1) == 0

/-- Embedding of the `neighbors` generator: the in-bounds, passable
4-neighbours in the order up, down, left, right. -/
def neighborsOf (g : List (List Nat)) (p : Pos) : List Pos :=
  [(p.1 - 1, p.2), (p.1 + 1, p.2), (p.1, p.2 - 1), (p.1, p.2 + 1)].filter
    (fun q => validPos g q.1 q.2)

/-- The BFS distance table; `none` is the initial `Infinity`. -/
abbrev DistMap := Pos → Option Nat

/-- Assign a distance to one position. -/
def distUpdate (d : DistMap) (p : Pos) (v : Nat) : DistMap :=
  fun q => if q = p then some v else d q

/-- Neighbour expansion of one dequeued position: every still-unvisited
neighbour gets distance `k` (`distance[y][x] + 1`) and is pushed onto the back
of the queue. -/
def bfsRelax (k : Nat) : List Pos → DistMap → List Pos → DistMap × List Pos
  | [], d, q => (d, q)
  | p :: rest, d, q =>
    match d p with
    | some _ => bfsRelax k rest d q
    | none => bfsRelax k rest (distUpdate d p k) (q ++ [p])

/-- The `while (queue.length > 0)` BFS loop, fuelled.  One iteration pops one
position, and every push turns an unvisited in-bounds cell into a visited one,
so the loop runs at most `height * width` times; the fuel passed by `bfsDist`
therefore never runs out (this is proved where needed via the measure
`noneCount + queue.length`).  A dequeued position always has an assigned
distance, so the `getD 0` default is never taken. -/
def bfsLoop (g : List (List Nat)) : Nat → DistMap → List Pos → DistMap
  | 0, d, _ => d
  | _ + 1, d, [] => d
  | fuel + 1, d, p :: rest =>
    let k := (d p).getD 0
    let dq := bfsRelax (k + 1) (neighborsOf g p) d rest
    bfsLoop g fuel dq.1 dq.2

/-- The BFS distance table computed by the Shortest Path solver:
`distance[0][0] = 0`, queue seeded with `[0, 0]`, loop to exhaustion. -/
def bfsDist (g : List (List Nat)) : DistMap :=
  bfsLoop g (gridHeight g * gridWidth g + 1) (distUpdate (fun _ => none) (0, 0) 0) [(0, 0)]

/-- Displacement of one direction character, `none` for the `default:` branch
(invalid character). -/
def dirDelta : Char → Option (Int × Int)
  | 'U' => some (-1, 0)
  | 'D' => some (1, 0)
  | 'L' => some (0, -1)
  | 'R' => some (0, 1)
  | _ => none

/-- The answer-walk loop of the Shortest Path solver: apply each direction
character in turn, failing (`none`) on an invalid character or on a step onto
an invalid position; returns the final position. -/
def followPath (g : List (List Nat)) : Int → Int → List Char → Option Pos
  | y, x, [] => some (y, x)
  | y, x, c :: rest =>
    match dirDelta c with
    | none => none
    | some dd =>
      if validPos g (y + dd.1) (x + dd.2) then followPath g (y + dd.1) (x + dd.2) rest
      else none

/-- Embedding of the Shortest Path in a Grid solver. -/
def shortestPathSolver (g : List (List Nat)) (ans : String) : Bool :=
  let dstY : Int := (gridHeight g : Int) - 1
  let dstX : Int := (gridWidth g : Int) - 1
  match bfsDist g (dstY, dstX) with
  | none => ans == ""
  | some dist =>
    if dist < ans.length then false
    else
      match followPath g 0 0 ans.toList with
      | none => false
      | some p => p.1 == dstY && p.2 == dstX

/-- Direction-character test, for stating the claim's condition (a). -/
def isDirChar (c : Char) : Bool :=
  c = 'U' || c = 'D' || c = 'L' || c = 'R'

/-- One step of the walk an answer string describes (identity on an invalid
character; only used under the all-direction-characters condition). -/
def stepPos (p : Pos) (c : Char) : Pos :=
  match dirDelta c with
  | some dd => (p.1 + dd.1, p.2 + dd.2)
  | none => p

/-- The successive positions the walk visits (one per character, the starting
cell excluded). -/
def walkPositions (p : Pos) : List Char → List Pos
  | [] => []
  | c :: rest =>
    let p2 := stepPos p c
    p2 :: walkPositions p2 rest

/-- Final position of the walk. -/
def walkEnd (p : Pos) (cs : List Char) : Pos :=
  (walkPositions p cs).getLastD p

/-- The claim's acceptance condition for the Shortest Path kind, stated the
way the specification words it. -/
def shortestPathClaimAccept (g : List (List Nat)) (ans : String) : Prop :=
  let dstY : Int := (gridHeight g : Int) - 1
  let dstX : Int := (gridWidth g : Int) - 1
  match bfsDist g (dstY, dstX) with
  | none => ans = ""
  | some dist =>
    (∀ c ∈ ans.toList, isDirChar c = true) ∧
    (∀ p ∈ walkPositions (0, 0) ans.toList, validPos g p.1 p.2 = true) ∧
    walkEnd (0, 0) ans.toList = (dstY, dstX) ∧
    ans.length ≤ dist

/-- Cells of the grid rectangle, as `Int` pairs. -/
def allCells (g : List (List Nat)) : List Pos :=
  (List.range (gridHeight g)).flatMap
    (fun y => (List.range (gridWidth g)).map (fun (x : Nat) => ((y : Int), (x : Int))))

/-- Number of in-rectangle cells still unvisited; together with the queue
length this is the BFS loop's termination measure. -/
def noneCount (g : List (List Nat)) (d : DistMap) : Nat :=
  (allCells g).countP (fun p => (d p).isNone)

/-- Distance value of a position, with the `Infinity`/unvisited default 0
(only read where the position is known to be visited). -/
def dval (d : DistMap) (p : Pos) : Nat := (d p).getD 0

/-- The BFS loop invariant: queue members are visited, queue distance values
are sorted and spread at most 1, every visited position either is still queued
or has all its neighbours visited at distance at most one more, and every
assigned distance is at most one more than any queued distance. -/
def BfsInv (g : List (List Nat)) (d : DistMap) (q : List Pos) : Prop :=
  (∀ p ∈ q, (d p).isSome) ∧
  List.Pairwise (fun p r => dval d p ≤ dval d r) q ∧
  (∀ a ∈ q, ∀ b ∈ q, dval d b ≤ dval d a + 1) ∧
  (∀ p k, d p = some k → p ∈ q ∨ ∀ r ∈ neighborsOf g p, ∃ m, d r = some m ∧ m ≤ k + 1) ∧
  (∀ p k, d p = some k → ∀ a ∈ q, k ≤ dval d a + 1)

/-! ## Sanitize Parentheses in Expression -/

/-- The pre-pass of the Sanitize Parentheses solver counting excess opening
(`left`) and closing (`right`) brackets. -/
def sanitizeCountLR : List Char → Nat → Nat → Nat × Nat
  | [], l, r => (l, r)
  | c :: rest, l, r =>
    if c = '(' then sanitizeCountLR rest (l + 1) r
    else if c = ')' then
      if 0 < l then sanitizeCountLR rest (l - 1) r else sanitizeCountLR rest l (r + 1)
    else sanitizeCountLR rest l r

/-- Embedding of the solver's `dfs` over keep/drop decisions; the result
accumulator is threaded through the recursive calls in the order the code
makes them, and a candidate solution is appended only if not already present
(the linear dedup scan). -/
def sanitizeDfs (pair : Nat) (cs : List Char) (left right : Nat) (sol : List Char)
    (res : List (List Char)) : List (List Char) :=
  match cs with
  | [] =>
    if pair = 0 ∧ left = 0 ∧ right = 0 then
      if sol ∈ res then res else res ++ [sol]
    else res
  | c :: rest =>
    if c = '(' then
      let res1 := if 0 < left then sanitizeDfs pair rest (left - 1) right sol res else res
      sanitizeDfs (pair + 1) rest left right (sol ++ [c]) res1
    else if c = ')' then
      let res1 := if 0 < right then sanitizeDfs pair rest left (right - 1) sol res else res
      if 0 < pair then sanitizeDfs (pair - 1) rest left right (sol ++ [c]) res1 else res1
    else sanitizeDfs pair rest left right (sol ++ [c]) res

/-- The reference solution set the Sanitize Parentheses solver recomputes. -/
def sanitizeRes (data : List Char) : List (List Char) :=
  let lr := sanitizeCountLR data 0 0
  sanitizeDfs 0 data lr.1 lr.2 [] []

/-- Answer canonicalization of the Sanitize Parentheses solver: strip one
bracket pair, split on commas, then per element strip whitespace and one quote
pair.  Note there is no filtering of empty elements here. -/
def sanitizeCanon (ans : String) : List (List Char) :=
  (splitOnComma (removeBracketsL ans.toList)).map
    (fun cs => removeQuotesL (stripWsL cs))

/-- Embedding of the Sanitize Parentheses solver: element counts must match
and every reference solution must appear among the submitted elements. -/
def sanitizeSolver (data : String) (ans : String) : Bool :=
  let res := sanitizeRes data.toList
  let arr := sanitizeCanon ans
  if arr.length ≠ res.length then false
  else res.all (fun r => arr.contains r)

/-! ## Find All Valid Math Expressions -/

/-- The digit groups the `for (let i = pos; …)` loop of the expression-search
helper forms from the front of the remaining digits, with the leading-zero
break: a group starting with `0` can only be the single digit `0`.  Each entry
is the group and the digits remaining after it. -/
def allSplits : List Char → List (List Char × List Char)
  | [] => []
  | c :: rest => ([c], rest) :: (allSplits rest).map (fun gr => (c :: gr.1, gr.2))

/-- Digit groups with the leading-zero rule applied. -/
def mathSplits : List Char → List (List Char × List Char)
  | [] => []
  | c :: rest => if c = '0' then [([c], rest)] else allSplits (c :: rest)

/-- Embedding of the expression-search `helper`, fuelled by the number of
remaining digits plus one (each recursive call consumes at least one digit, so
the fuel passed by `mathExprResult` never runs out).  `isFirst` models the
`pos === 0` test; the `evaluated - multed + multed * cur` update folds a new
factor into the previous multiplication. -/
def mathHelper (target : Int) : Nat → List Char → Bool → List Char → Int → Int →
    List (List Char) → List (List Char)
  | 0, _, _, _, _, _, res => res
  | _ + 1, [], _, path, evaluated, _, res =>
    if evaluated = target then res ++ [path] else res
  | fuel + 1, c :: rest0, isFirst, path, evaluated, multed, res =>
    (mathSplits (c :: rest0)).foldl
      (fun res gr =>
        let cur : Int := decimalValue gr.1
        if isFirst then
          mathHelper target fuel gr.2 false (path ++ intToStrList cur) cur cur res
        else
          let r1 := mathHelper target fuel gr.2 false (path ++ '+' :: intToStrList cur)
            (evaluated + cur) cur res
          let r2 := mathHelper target fuel gr.2 false (path ++ '-' :: intToStrList cur)
            (evaluated - cur) (-cur) r1
          mathHelper target fuel gr.2 false (path ++ '*' :: intToStrList cur)
            (evaluated - multed + multed * cur) (multed * cur) r2)
      res

/-- The reference expression list the Find All Valid Math Expressions solver
recomputes. -/
def mathExprResult (num : List Char) (target : Int) : List (List Char) :=
  mathHelper target (num.length + 1) num true [] 0 0 []

/-- Answer canonicalization of the Find All Valid Math Expressions solver:
strip one bracket pair, split on commas, drop empty elements (`filterTruthy`),
then per element strip whitespace and one quote pair. -/
def mathExprCanon (ans : String) : List (List Char) :=
  ((splitOnComma (removeBracketsL ans.toList)).filter (fun cs => !cs.isEmpty)).map
    (fun cs => removeQuotesL (stripWsL cs))

/-- Embedding of the Find All Valid Math Expressions solver. -/
def mathExprSolver (state : List Char × Int) (ans : String) : Bool :=
  let arr := mathExprCanon ans
  if state.1.isEmpty then
    if arr.length = 0 then true
    else if arr.length = 1 ∧ arr.getD 0 ['x'] = [] then true
    else false
  else
    let result := mathExprResult state.1 state.2
    if result.length ≠ arr.length then false
    else arr.all (fun expr => result.contains expr)

/-! ## Proper 2-Coloring of a Graph -/

/-- Embedding of the solver's `neighbourhood` helper: targets of edges whose
first endpoint is `v`, then sources of edges whose second endpoint is `v`. -/
def neighbourhood (edges : List (Nat × Nat)) (v : Nat) : List Nat :=
  (edges.filter (fun e => e.1 == v)).map (fun e => e.2) ++
    (edges.filter (fun e => e.2 == v)).map (fun e => e.1)

/-- The `for (const id in neighbors)` body: colour each still-uncoloured
neighbour opposite to `v` (the `else` branch assigns 0 when `coloring[v]` is
anything but 0) and push it; report a conflict (`none`) when a coloured
neighbour matches `v`'s colour exactly. -/
def visitNeighbors (v : Nat) : List Nat → (Nat → Option Nat) → List Nat →
    Option ((Nat → Option Nat) × List Nat)
  | [], col, frontier => some (col, frontier)
  | u :: rest, col, frontier =>
    match col u with
    | none =>
      let cu := if col v = some 0 then 1 else 0
      visitNeighbors v rest (fun w => if w = u then some cu else col w) (frontier ++ [u])
    | some cu =>
      if col v = some cu then none
      else visitNeighbors v rest col frontier

/-- The `while (frontier.length > 0)` propagation loop, fuelled
(`frontier.pop()` takes from the back).  Returns `none` when a same-colour
adjacency was found.  Every frontier push is a newly coloured vertex, so the
fuel passed by `twoColoringConflict` never runs out for the registry's
states. -/
def propagateLoop (edges : List (Nat × Nat)) : Nat → (Nat → Option Nat) → List Nat →
    Option (Nat → Option Nat)
  | 0, col, _ => some col
  | fuel + 1, col, frontier =>
    match frontier.getLast? with
    | none => some col
    | some v =>
      match visitNeighbors v (neighbourhood edges v) col frontier.dropLast with
      | none => none
      | some cf => propagateLoop edges fuel cf.1 cf.2

/-- The outer `while (coloring.some(undefined))` loop, fuelled: colour the
first uncoloured vertex 0 and propagate through its component; `true` exactly
when some propagation hit a same-colour adjacency. -/
def coloringAttempt (n : Nat) (edges : List (Nat × Nat)) : Nat → (Nat → Option Nat) → Bool
  | 0, _ => false
  | fuel + 1, col =>
    match (List.range n).find? (fun i => (col i).isNone) with
    | none => false
    | some iv =>
      let col1 : Nat → Option Nat := fun w => if w = iv then some 0 else col w
      match propagateLoop edges (n + 2 * edges.length + 2) col1 [iv] with
      | none => true
      | some col2 => coloringAttempt n edges fuel col2

/-- The empty-answer branch of the 2-coloring solver: attempt a greedy
2-coloring and accept "no solution" exactly when a conflict shows up. -/
def twoColoringConflict (data : Nat × List (Nat × Nat)) : Bool :=
  coloringAttempt data.1 data.2 (data.1 + 1) (fun _ => none)

/-- A parsed colour is valid when `validColors.includes` holds, i.e. it is the
number 0 or 1 (`NaN`/`undefined`, both collapsed to `none` here, are not). -/
def validColor : Option Int → Bool
  | some v => v == 0 || v == 1
  | none => false

/-- JavaScript `aColor != bColor` on parsed colours.  `none` collapses `NaN`
and `undefined`; the choice made at `none`/`none` (true, the `NaN != NaN`
behaviour) never influences `coloringCheck`, whose conjunction is already
false there via `validColor`. -/
def jsNeq : Option Int → Option Int → Bool
  | some a, some b => a != b
  | _, _ => true

/-- The submitted-coloring branch of the 2-coloring solver: exact length
match, then `edges.every` of the two-valid-colours-and-different test. -/
def coloringCheck (data : Nat × List (Nat × Nat)) (coloring : List (Option Int)) : Bool :=
  if coloring.length = data.1 then
    data.2.all (fun e =>
      let aC := coloring.getD e.1 none
      let bC := coloring.getD e.2 none
      validColor aC && validColor bC && jsNeq aC bC)
  else false

/-- Answer parsing of the 2-coloring solver: strip one bracket pair, split on
commas, `parseInt` each element (no whitespace or quote stripping here). -/
def twoColoringParse (ans : String) : List (Option Int) :=
  (splitOnComma (removeBracketsL ans.toList)).map parseIntJSL

/-- Embedding of the Proper 2-Coloring of a Graph solver. -/
def twoColoringSolver (data : Nat × List (Nat × Nat)) (ans : String) : Bool :=
  if removeBracketsFromArrayString ans == "" then twoColoringConflict data
  else coloringCheck data (twoColoringParse ans)

/-! ## Compression I: RLE Compression -/

/-- The decode loop of the RLE solver: each pair is a length digit (checked to
be in 0..9 via its character code) and a character to repeat.  `none` models
the early `return false` on an out-of-range length character.  A trailing
unpaired character is skipped by the `i + 1 < ans.length` guard (unreachable
under the even-length check). -/
def rleDecodePairs : List Char → Option (List Char)
  | [] => some []
  | [_] => some []
  | c1 :: c2 :: rest =>
    if (c1.toNat : Int) - 48 < 0 ∨ 9 < (c1.toNat : Int) - 48 then none
    else
      (rleDecodePairs rest).map
        (fun tail => List.replicate ((c1.toNat : Int) - 48).toNat c2 ++ tail)

/-- The `while (run_length > 0) { run_length -= 9; length += 2 }` inner loop
of the RLE solver's minimum-length computation, fuelled (the wrapper passes
`r`, always enough since each iteration consumes one positive unit). -/
def rleChunklenAux : Nat → Nat → Nat
  | 0, _ => 0
  | fuel + 1, r => if r = 0 then 0 else 2 + rleChunklenAux fuel (r - 9)

/-- Cost the RLE solver charges for one maximal run of length `r`. -/
def rleChunklen (r : Nat) : Nat := rleChunklenAux r r

/-- The RLE solver's minimum encoded length, fuelled by the remaining string
length (each step drops at least the run head, so `length + 1` fuel always
completes the walk). -/
def rleMinLengthAux : Nat → List Char → Nat
  | 0, _ => 0
  | _ + 1, [] => 0
  | fuel + 1, c :: rest =>
    rleChunklen (1 + (rest.takeWhile (fun x => x == c)).length) +
      rleMinLengthAux fuel (rest.dropWhile (fun x => x == c))

/-- The RLE solver's minimum encoded length: walk the plaintext run by
maximal run, charging the chunk loop's cost for each. -/
def rleMinLength (l : List Char) : Nat := rleMinLengthAux (l.length + 1) l

/-- Embedding of the Compression I (RLE) solver. -/
def rleSolver (plain : List Char) (ans : List Char) : Bool :=
  if ans.length % 2 ≠ 0 then false
  else
    match rleDecodePairs ans with
    | none => false
    | some dec => if dec ≠ plain then false else ans.length ≤ rleMinLength plain

/-- An ASCII decimal digit (`charCodeAt` between 0x30 and 0x39), the claim's
"digit 0..9". -/
def isAsciiDigit (c : Char) : Bool :=
  48 ≤ c.toNat && c.toNat ≤ 57

/-- The characters at even indices of a list (the length digits of an RLE
answer). -/
def evenIndexChars : List Char → List Char
  | [] => []
  | [c] => [c]
  | c1 :: _ :: rest => c1 :: evenIndexChars rest

/-- Decoding as the claim words it: repeat each chunk's character
chunk-length times, in order (meaningful under the even-index-digits
condition). -/
def rleClaimDecode : List Char → List Char
  | [] => []
  | [_] => []
  | c1 :: c2 :: rest => List.replicate (digitVal c1) c2 ++ rleClaimDecode rest

/-- Maximal runs, fuelled exactly like `rleMinLengthAux` so the two walks can
be compared step by step. -/
def runsOfAux : Nat → List Char → List (Char × Nat)
  | 0, _ => []
  | _ + 1, [] => []
  | fuel + 1, c :: rest =>
    (c, 1 + (rest.takeWhile (fun x => x == c)).length) ::
      runsOfAux fuel (rest.dropWhile (fun x => x == c))

/-- Maximal runs of a string: each entry is the repeated character and the run
length. -/
def runsOf (l : List Char) : List (Char × Nat) := runsOfAux (l.length + 1) l

/-- The theoretical minimum encoded length as the claim words it: the sum
over maximal runs of `ceil(run_length / 9) * 2`. -/
def rleClaimMin (plain : List Char) : Nat :=
  ((runsOf plain).map (fun r => (r.2 + 8) / 9 * 2)).sum

/-! ## Square Root -/

/-- Embedding of the Square Root kind's `getData`:
`BigInt(state[0]) * BigInt(state[0]) + BigInt(state[1])`; `none` models the
`BigInt` constructor throwing on a malformed digit string. -/
def squareRootGetData (state : String × String) : Option Int :=
  match parseBigInt state.1, parseBigInt state.2 with
  | some a, some b => some (a * a + b)
  | _, _ => none

/-- Embedding of the Square Root kind's solver: `state[0] === ans`, a literal
string comparison against the stored root string. -/
def squareRootSolver (state : String × String) (ans : String) : Bool :=
  state.1 == ans

/-! ## Subarray with Maximum Sum -/

/-- The in-place Kadane pass `nums[i] = Math.max(nums[i], nums[i] + nums[i-1])`
of the Subarray with Maximum Sum solver, carrying the previous (already
transformed) entry. -/
def kadaneRow : Int → List Int → List Int
  | _, [] => []
  | prev, x :: rest =>
    let v := max x (x + prev)
    v :: kadaneRow v rest

/-- Embedding of the Subarray with Maximum Sum solver.  On an empty state
`Math.max(...nums)` is `-Infinity`, which `parseInt` can never produce, so
the comparison is `false` (no generator produces one: lengths are 5..40). -/
def subarrayMaxSolver (data : List Int) (ans : String) : Bool :=
  match data with
  | [] => false
  | x :: rest => parseIntJS10 ans == some ((x :: kadaneRow x rest).foldl max x)

/-! ## Total Ways to Sum II -/

/-- The coin-change table of the Total Ways to Sum II solver:
`ways = [1, 0, …, 0]` of length `n + 1`, then for each `s[i]`,
`for (j = s[i]; j <= n; j++) ways[j] += ways[j - s[i]]`, returning
`ways[n]`. -/
def twts2Ways (n : Nat) (s : List Nat) : Nat :=
  let init : List Nat := 1 :: List.replicate n 0
  (s.foldl (fun w si => (List.range' si (n + 1 - si)).foldl
      (fun w j => w.set j (w.getD j 0 + w.getD (j - si) 0)) w) init).getD n 0

/-- Embedding of the Total Ways to Sum II solver on states `[n, s]`, with
the set `s` as the generator produces it (integers in `[1, n]`; a negative
element would make JavaScript read and write properties at negative indices
— `NaN` pollution but not a fault — which no generator state reaches).
`none` models the `RangeError` from `ways.length = n + 1` when that length
is negative.  For `n = -1` the table is empty and `ways[n]` is `undefined`,
unequal to every number and to `NaN`. -/
def totalWaysToSumIISolver (state : Int × List Nat) (ans : String) : Option Bool :=
  if state.1 + 1 < 0 then none
  else some (
    if state.1 < 0 then false
    else match parseIntJS10 ans with
      | none => false
      | some v => ((twts2Ways state.1.toNat state.2 : Int) == v))

/-! ## Spiralize Matrix -/

/-- The inclusive integer range `[a, b]`, ascending (empty when `b < a`). -/
def intRange (a b : Int) : List Int :=
  (List.range (b + 1 - a).toNat).map (fun (i : Nat) => a + (i : Int))

/-- `data[r][c]` as the spiral walk reads it: `none` is JavaScript
`undefined` (row or column out of range). -/
def matEntry (data : List (List Int)) (r c : Int) : Option Int :=
  if r < 0 ∨ c < 0 then none
  else match data.get? r.toNat with
    | none => none
    | some row => row.get? c.toNat

/-- One `while (!done)` round of the Spiralize Matrix boundary walk: the Up,
Right, Down and Left passes, each preceded by the bound update and `done`
check of the previous pass.  Fuelled; the wrapper passes `m + n + 2`,
always enough because a round that does not set `done` shrinks both
dimensions by two. -/
def spiralAux (data : List (List Int)) : Nat → Int → Int → Int → Int → List (Option Int)
  | 0, _, _, _, _ => []
  | fuel + 1, u, d, l, r =>
    let up := (intRange l r).map (fun col => matEntry data u col)
    if d < u + 1 then up
    else
      let right := (intRange (u + 1) d).map (fun row => matEntry data row r)
      if r - 1 < l then up ++ right
      else
        let down := ((intRange l (r - 1)).reverse).map (fun col => matEntry data d col)
        if d - 1 < u + 1 then up ++ right ++ down
        else
          let left := ((intRange (u + 1) (d - 1)).reverse).map (fun row => matEntry data row l)
          if r - 1 < l + 1 then up ++ right ++ down ++ left
          else up ++ right ++ down ++ left ++ spiralAux data fuel (u + 1) (d - 1) (l + 1) (r - 1)

/-- The spiral order of the matrix entries (`undefined` entries of jagged
rows included as `none`). -/
def spiralOrder (data : List (List Int)) : List (Option Int) :=
  spiralAux data (data.length + (data.headD []).length + 2)
    0 ((data.length : Int) - 1) 0 (((data.headD []).length : Int) - 1)

/-- JavaScript `===` between a spiral entry (a number, or `undefined` from a
jagged row) and a parsed answer entry (a number, or `NaN`): `undefined` and
`NaN` are strictly equal to nothing of the other side, so any `none` makes
the comparison false (`undefined === undefined` cannot arise: the two sides
draw their `none`s from the two different sources). -/
def strictEqNum : Option Int → Option Int → Bool
  | some a, some b => a == b
  | _, _ => false

/-- Embedding of the Spiralize Matrix solver.  `none` models the `TypeError`
from `data[0].length` on an empty matrix (no generator produces one: both
dimensions are 1..15).  The answer is bracket-stripped, whitespace-stripped,
comma-split and parsed with radix-free `parseInt`. -/
def spiralizeSolver (data : List (List Int)) (ans : String) : Option Bool :=
  match data with
  | [] => none
  | _ :: _ =>
    let spiral := spiralOrder data
    let playerAns := (splitOnComma (stripWsL (removeBracketsL ans.toList))).map parseIntJSL
    some (spiral.length == playerAns.length &&
      (spiral.zip playerAns).all (fun pq => strictEqNum pq.1 pq.2))

/-! ## Array Jumping Game -/

/-- The greedy loop `for (reach = 0; i < n && i <= reach; ++i)
reach = Math.max(i + data[i], reach)` of the Array Jumping Game solver,
fuelled by `n + 1` (the index increases every round and the loop stops at
`n`); returns the final `i`. -/
def ajgLoop (data : List Int) : Nat → Nat → Int → Nat
  | 0, i, _ => i
  | fuel + 1, i, reach =>
    if i < data.length ∧ (i : Int) ≤ reach then
      ajgLoop data fuel (i + 1) (max ((i : Int) + data.getD i 0) reach)
    else i

/-- Embedding of the Array Jumping Game solver: the end is reachable iff the
loop runs off the array; the only accepted answers are the literal strings
"1" and "0". -/
def arrayJumpingSolver (data : List Int) (ans : String) : Bool :=
  let i := ajgLoop data (data.length + 1) 0 0
  let solution := i == data.length
  (ans == "1" && solution) || (ans == "0" && !solution)

/-! ## Array Jumping Game II -/

/-- The inner backward scan `for (i = reach; i > lastJump; i--)` of the
Array Jumping Game II solver: the candidate indices are fixed at loop entry
(descending from the old `reach`), while `(reach, jumpedFrom)` update as the
scan proceeds.  Every scanned index satisfies `lastJump < i ≤ reach < n - 1`,
so the array read is always in range. -/
def ajg2Scan (data : List Int) : List Int → Int × Int → Int × Int
  | [], st => st
  | i :: rest, (reach, jumpedFrom) =>
    if i + data.getD i.toNat 0 > reach then
      ajg2Scan data rest (i + data.getD i.toNat 0, i)
    else ajg2Scan data rest (reach, jumpedFrom)

/-- The outer `while (reach < n - 1)` loop of the Array Jumping Game II
solver, fuelled by `n + 1`: every round either breaks (`jumpedFrom === -1`,
returning 0 jumps) or strictly increases the integer `reach`, which must
stay below `n - 1` for the loop to continue, so at most `n` rounds run. -/
def ajg2Loop (data : List Int) : Nat → Int → Int → Nat → Nat
  | 0, _, _, jumps => jumps
  | fuel + 1, reach, lastJump, jumps =>
    if reach < (data.length : Int) - 1 then
      let st := ajg2Scan data ((intRange (lastJump + 1) reach).reverse) (reach, -1)
      if st.2 == -1 then 0
      else ajg2Loop data fuel st.1 st.2 (jumps + 1)
    else jumps

/-- Embedding of the Array Jumping Game II solver
(`jumps === parseInt(ans, 10)`). -/
def arrayJumping2Solver (data : List Int) (ans : String) : Bool :=
  parseIntJS10 ans == some ((ajg2Loop data (data.length + 1) 0 (-1) 0 : Nat) : Int)

/-! ## Merge Overlapping Intervals -/

/-- One interval as `convert2DArrayToString` renders it:
`["[", String(e), "]"].join("")`, i.e. `"[a,b]"` (the final
`.replace(/\s/g, "")` never finds whitespace in number lists). -/
def intervalStr (p : Int × Int) : List Char :=
  '[' :: intToStrList p.1 ++ ',' :: intToStrList p.2 ++ [']']

/-- `convert2DArrayToString`: the per-interval strings joined with commas. -/
def convert2DArrayToStr (arr : List (Int × Int)) : List Char :=
  List.intercalate [','] (arr.map intervalStr)

/-- The merge fold of the Merge Overlapping Intervals solver: the loop walks
every sorted interval (the first one again included) starting from the first
interval's bounds; on overlap (`interval[0] <= end`) the end extends,
otherwise the current interval is flushed, and the last one is pushed after
the loop. -/
def mergeFold : List (Int × Int) → Int → Int → List (Int × Int) → List (Int × Int)
  | [], start, en, result => result ++ [(start, en)]
  | iv :: rest, start, en, result =>
    if iv.1 ≤ en then mergeFold rest start (max en iv.2) result
    else mergeFold rest iv.1 iv.2 (result ++ [(start, en)])

/-- Embedding of the Merge Overlapping Intervals solver.  `none` models the
`TypeError` from `intervals[0][0]` on an empty state (no generator produces
one: 3..20 intervals).  `Array.prototype.sort` with comparator
`a[0] - b[0]` is a stable ascending sort on the left endpoint, i.e.
`List.mergeSort`; `headD`'s default is unreachable since the sorted copy of
a nonempty list is nonempty. -/
def mergeIntervalsSolver (data : List (Int × Int)) (ans : String) : Option Bool :=
  match data with
  | [] => none
  | _ :: _ =>
    let sorted := data.mergeSort (fun a b => a.1 ≤ b.1)
    let first := sorted.headD (0, 0)
    let sanitizedResult := convert2DArrayToStr (mergeFold sorted first.1 first.2 [])
    let sanitizedAns := stripWsL ans.toList
    some (sanitizedResult == sanitizedAns || sanitizedResult == removeBracketsL sanitizedAns)

/-! ## Generate IP Addresses -/

/-- One candidate octet split `(a, b, c, d)` of the Generate IP Addresses
solver: the four substrings parse with radix-10 `parseInt` (a `NaN` fails
`A <= 255`), each octet must be at most 255, and the rebuilt dotted string
must have the original length plus three (excluding leading zeros). -/
def ipCandidate (data : List Char) (a b c d : Nat) : Option (List Char) :=
  if a + b + c + d = data.length then
    match parseIntJS10L (data.take a), parseIntJS10L ((data.drop a).take b),
        parseIntJS10L ((data.drop (a + b)).take c),
        parseIntJS10L ((data.drop (a + b + c)).take d) with
    | some va, some vb, some vc, some vd =>
      if va ≤ 255 ∧ vb ≤ 255 ∧ vc ≤ 255 ∧ vd ≤ 255 then
        let ip := intToStrList va ++ '.' :: intToStrList vb ++ '.' ::
          intToStrList vc ++ '.' :: intToStrList vd
        if ip.length = data.length + 3 then some ip else none
      else none
    | _, _, _, _ => none
  else none

/-- The solver's reference list `ret`: the quadruple loop over octet widths
`a, b, c, d ∈ 1..3`, keeping the surviving candidates in loop order. -/
def ipRet (data : List Char) : List (List Char) :=
  (List.range' 1 3).flatMap (fun a =>
    (List.range' 1 3).flatMap (fun b =>
      (List.range' 1 3).flatMap (fun c =>
        (List.range' 1 3).filterMap (fun d => ipCandidate data a b c d))))

/-- The per-element quote strip
`ip.replace(/^(['"])([\d.]*)\1$/g, "$2")`: the outer quotes are removed only
when they match each other and the body is nothing but digits and dots. -/
def ipStripQuotes (s : List Char) : List Char :=
  match s with
  | [] => []
  | c :: rest =>
    if (c == '"' || c == '\x27') && !rest.isEmpty && rest.getLast? == some c &&
        rest.dropLast.all (fun x => x.isDigit || x == '.') then
      rest.dropLast
    else c :: rest

/-- Embedding of the Generate IP Addresses solver: the answer is
bracket-stripped, whitespace-stripped, comma-split and quote-stripped per
element; accept iff the element count matches `ret`'s and every element
occurs in `ret`. -/
def generateIpSolver (data : List Char) (ans : String) : Bool :=
  let ret := ipRet data
  let ansArr := (splitOnComma (stripWsL (removeBracketsL ans.toList))).map ipStripQuotes
  ansArr.length == ret.length && ansArr.all (fun ip => ret.contains ip)

/-! ## Algorithmic Stock Trader II and III -/

/-- Embedding of the Stock Trader II solver: the greedy sum of positive
adjacent differences (the loop accumulating
`Math.max(data[p] - data[p-1], 0)`), compared as text
(`profit.toString() === ans`). -/
def stockTrader2Solver (data : List Int) (ans : String) : Bool :=
  intToStr (match data with | [] => 0 | p :: rest => sumPosDiffs p rest) == ans

/-- The four-variable fold of the Stock Trader III solver.  The source
updates `release2, hold2, release1, hold1` in that order, each read on the
right-hand side seeing the previous iteration's value, so the update is
simultaneous; returns the final `release2`. -/
def st3Loop : List Int → Int × Int × Int × Int → Int
  | [], (_, _, _, release2) => release2
  | p :: rest, (hold1, hold2, release1, release2) =>
    st3Loop rest (max hold1 (-p), max hold2 (release1 - p),
      max release1 (hold1 + p), max release2 (hold2 + p))

/-- Embedding of the Stock Trader III solver
(`release2.toString() === ans`; `Number.MIN_SAFE_INTEGER` initialises the
holds, exact over the generator's price range as in Stock Trader IV). -/
def stockTrader3Solver (data : List Int) (ans : String) : Bool :=
  intToStr (st3Loop data (minSafeNeg, minSafeNeg, 0, 0)) == ans

/-! ## Minimum Path Sum in a Triangle -/

/-- One bottom-up row pass `dp[j] = Math.min(dp[j], dp[j+1]) + data[i][j]`
for `j < data[i].length` (ascending `j`, so every `dp[j+1]` read still holds
the lower row's value). -/
def triRowStep (row : List Int) (dp : List Int) : List Int :=
  (List.range row.length).foldl
    (fun dp j => dp.set j (min (dp.getD j 0) (dp.getD (j + 1) 0) + row.getD j 0)) dp

/-- Embedding of the Minimum Path Sum in a Triangle solver on
triangle-shaped states as the generator produces them (row `i` holds `i + 1`
entries, keeping every `dp` read in range; on malformed shapes JavaScript
would read `undefined` and propagate `NaN` without faulting).  `none` models
the `TypeError` from `data[n-1].slice()` on an empty state (no generator
produces one: 3..12 rows); the comparison uses radix-free `parseInt`. -/
def triangleSolver (data : List (List Int)) (ans : String) : Option Bool :=
  match data with
  | [] => none
  | _ :: _ =>
    let dp := (data.dropLast.reverse).foldl (fun dp row => triRowStep row dp) (data.getLastD [])
    some (parseIntJS ans == some (dp.getD 0 0))

/-! ## Unique Paths in a Grid I -/

/-- Embedding of the Unique Paths in a Grid I solver on a
`[rows, columns]` state.  `none` models the `RangeError` from
`currentRow.length = n` for a negative row count (no generator produces
one: 2..14 rows).  For `n = 0` the final read `currentRow[n-1]` is
`undefined`, strictly unequal to every radix-free `parseInt` result. -/
def uniquePaths1Solver (state : Int × Int) (ans : String) : Option Bool :=
  let n := state.1
  let m := state.2
  if n < 0 then none
  else some (
    if n = 0 then false
    else
      let row0 : List Int := List.replicate n.toNat 1
      let final := (List.range (m - 1).toNat).foldl
        (fun row _ => (List.range' 1 (n.toNat - 1)).foldl
          (fun r i => r.set i (r.getD i 0 + r.getD (i - 1) 0)) row) row0
      parseIntJS ans == some (final.getD (n.toNat - 1) 0))

/-! ## Unique Paths in a Grid II -/

/-- One cell update of the Unique Paths in a Grid II in-place dynamic
program: obstacles (`== 1`) become 0, the start cell becomes 1, and every
other cell the sum of its upper and left neighbours. -/
def up2Cell (g : List (List Int)) (i j : Nat) : List (List Int) :=
  let gij := (g.getD i []).getD j 0
  let v :=
    if gij == 1 then 0
    else if i == 0 && j == 0 then 1
    else (if 0 < i then (g.getD (i - 1) []).getD j 0 else 0) +
      (if 0 < j then (g.getD i []).getD (j - 1) 0 else 0)
  g.set i ((g.getD i []).set j v)

/-- Embedding of the Unique Paths in a Grid II solver on rectangular states
as the generator produces them (all rows as long as row 0; on jagged states
JavaScript would store `NaN`s via `undefined` reads without faulting).
`none` models the `TypeError` from `obstacleGrid[0].length` (via
`obstacleGrid[-1][…]` on the final read) on an empty state (no generator
produces one: both dimensions are 2..14).  For a zero-width first row the
final read `…[-1]` is `undefined`, unequal to every radix-free `parseInt`
result. -/
def uniquePaths2Solver (data : List (List Int)) (ans : String) : Option Bool :=
  match data with
  | [] => none
  | r0 :: _ =>
    let final := (List.range data.length).foldl
      (fun g i => (List.range r0.length).foldl (fun g j => up2Cell g i j) g) data
    some (
      if r0.isEmpty then false
      else parseIntJS ans == some ((final.getD (data.length - 1) []).getD (r0.length - 1) 0))

/-! ## HammingCodes utilities (modelled: `utils/HammingCodeTools` is outside
the reviewed source) -/

/-- Whether `n` is a power of two, by repeated halving (fuelled by `n`). -/
def isPow2Aux : Nat → Nat → Bool
  | 0, _ => false
  | _ + 1, 0 => false
  | _ + 1, 1 => true
  | fuel + 1, n => if n % 2 = 0 then isPow2Aux fuel (n / 2) else false

/-- Whether a codeword position is a power of two. -/
def isPow2 (n : Nat) : Bool := isPow2Aux n n

/-- A parity position of the extended Hamming code: position 0 or a power of
two.  Data positions are all others. -/
def isParityPos (p : Nat) : Bool := p == 0 || isPow2 p

/-- The binary digits of `n`, least significant first, fuelled by `n`. -/
def natBitsRevAux : Nat → Nat → List Char
  | 0, _ => []
  | _ + 1, 0 => []
  | fuel + 1, n => (if n % 2 = 1 then '1' else '0') :: natBitsRevAux fuel (n / 2)

/-- `n.toString(2)`: the binary digits of `n`, most significant first. -/
def natBits (n : Nat) : List Char :=
  if n = 0 then ['0'] else (natBitsRevAux n n).reverse

/-- The first `k` data (non-parity) positions, in increasing order; the scan
bound `2k + 4` always suffices because the parity positions below it are
only 0 and the at most `log₂(2k + 4) + 1` powers of two. -/
def dataPositions (k : Nat) : List Nat :=
  ((List.range (2 * k + 4)).filter (fun p => !isParityPos p)).take k

/-- Modelled from the spec: `HammingEncode` of `utils/HammingCodeTools`
(imported by the registry but not part of the reviewed source).  Extended
Hamming code per the spec: the binary digits of `n` (most significant bit
first) fill the non-power-of-two positions; the parity bit at each
power-of-two position `p` makes the number of ones among the positions
sharing that bit with `p` even (the bit test `q / p % 2` keeps the
definition kernel-reducible); the overall parity bit at position 0,
covering the entire codeword, is computed last. -/
def hammingEncode (n : Nat) : List Char :=
  let bits := (natBits n).map (fun c => c == '1')
  let dpos := dataPositions bits.length
  let len := dpos.getLastD 0 + 1
  let dataAt : Nat → Bool := fun p =>
    match (dpos.zip bits).find? (fun q => q.1 == p) with
    | some q => q.2
    | none => false
  let parityAt : Nat → Bool := fun p =>
    ((List.range len).filter (fun q => !isParityPos q && q / p % 2 == 1)).countP dataAt % 2 == 1
  let bitAt : Nat → Bool := fun p => if isPow2 p then parityAt p else dataAt p
  let rest := (List.range' 1 (len - 1)).map bitAt
  let overall := rest.countP (fun b => b) % 2 == 1
  (overall :: rest).map (fun b => if b then '1' else '0')

/-- Modelled from the spec: `HammingDecode` of `utils/HammingCodeTools`.
The syndrome — the XOR of all positions holding a one — locates a single
flipped bit (it is 0 when every parity check passes); after flipping it the
data bits (non-parity positions, most significant first) are read off as a
binary number.  Characters other than '1' count as zero bits. -/
def hammingDecode (data : List Char) : Int :=
  let bits := data.map (fun c => c == '1')
  let len := bits.length
  let syn := (List.range len).foldl (fun acc p => if bits.getD p false then acc ^^^ p else acc) 0
  let fixed := if syn == 0 then bits else bits.set syn (!bits.getD syn false)
  let dbits := ((List.range len).filter (fun p => !isParityPos p)).map (fun p => fixed.getD p false)
  ((dbits.foldl (fun acc b => 2 * acc + (if b then 1 else 0)) 0 : Nat) : Int)

/-- Embedding of the HammingCodes: Integer to Encoded Binary solver
(`ans === HammingEncode(data)`). -/
def hammingEncodeSolver (data : Nat) (ans : String) : Bool :=
  ans.toList == hammingEncode data

/-- Embedding of the HammingCodes: Encoded Binary to Integer solver
(`parseInt(ans, 10) === HammingDecode(data)`). -/
def hammingDecodeSolver (data : List Char) (ans : String) : Bool :=
  parseIntJS10 ans == some (hammingDecode data)

/-! ## Compression utilities (modelled: `utils/CompressionContracts` is
outside the reviewed source) -/

/-- A self-referential copy of `len` characters, each `off` places before
its own position in the growing output, one character at a time, so a
backreference window overlapping its own output re-reads freshly written
characters. -/
def lzCopy : Nat → Nat → List Char → List Char
  | 0, _, out => out
  | len + 1, off, out => lzCopy len off (out ++ [out.getD (out.length - off) ' '])

/-- Modelled from the spec: `comprLZDecode` of `utils/CompressionContracts`.
Chunks alternate starting with the literal type; each is a digit length `L`
('0' = empty chunk, skip to the other type) followed by `L` literal
characters, or by one digit `X` for a backreference `X` places back.
`none` models the reference decoder's `null` on malformed input: a
non-digit where a length or offset is expected, a truncated chunk, or a
backreference outside the output produced so far.  Fuelled by the input
length (every step consumes at least the length digit). -/
def lzDecodeAux : Nat → Bool → List Char → List Char → Option (List Char)
  | 0, _, _, _ => none
  | _ + 1, _, [], out => some out
  | fuel + 1, lit, c :: rest, out =>
    if !c.isDigit then none
    else if digitVal c == 0 then lzDecodeAux fuel (!lit) rest out
    else if lit then
      if rest.length < digitVal c then none
      else lzDecodeAux fuel false (rest.drop (digitVal c)) (out ++ rest.take (digitVal c))
    else
      match rest with
      | [] => none
      | x :: rest2 =>
        if !x.isDigit || digitVal x == 0 || out.length < digitVal x then none
        else lzDecodeAux fuel true rest2 (lzCopy (digitVal c) (digitVal x) out)

/-- The LZ decoder on a whole input. -/
def lzDecode (input : List Char) : Option (List Char) :=
  lzDecodeAux (input.length + 1) true input []

/-- Modelled from the spec: `comprLZEncode` of `utils/CompressionContracts`.
The reference encoder produces a minimum-length valid encoding; the
registry uses its output only as a generated state (Compression II) and as
the acceptance length bound (Compression III).  This model emits plain
literal chunks of up to nine characters separated by empty backreference
chunks — a valid, total encoding of the same plaintext; minimality is not
modelled, and no claim settled in this file depends on the encoded value or
its length. -/
def lzEncodeAux : Nat → List Char → List Char
  | 0, _ => []
  | _ + 1, [] => []
  | fuel + 1, cs =>
    Nat.digitChar (cs.take 9).length :: (cs.take 9 ++
      (if cs.length ≤ 9 then [] else '0' :: lzEncodeAux fuel (cs.drop 9)))

/-- The modelled LZ encoder on a whole input. -/
def lzEncode (cs : List Char) : List Char := lzEncodeAux (cs.length + 1) cs

/-- Embedding of the Compression II: LZ Decompression solver
(`ans === comprLZDecode(compr)`); a `null` from the decoder equals no
string, so the comparison is false. -/
def lzDecompressionSolver (compr : List Char) (ans : String) : Bool :=
  match lzDecode compr with
  | some out => ans.toList == out
  | none => false

/-- Embedding of the Compression III: LZ Compression solver
(`comprLZDecode(ans) === plain && ans.length <= comprLZEncode(plain).length`). -/
def lzCompressionSolver (plain : List Char) (ans : String) : Bool :=
  (match lzDecode ans.toList with
    | some out => out == plain
    | none => false) && ans.toList.length ≤ (lzEncode plain).length

/-! ## Encryption I: Caesar Cipher -/

/-- One character of the Caesar cipher: spaces pass through, everything else
maps via `String.fromCharCode(((code - 65 - shift + 26) % 26) + 65)` with
JavaScript `%` (truncated remainder, `Int.tmod`); the result of
`… tmod 26 + 65` is at least 40, so the `toNat` is exact. -/
def caesarChar (shift : Int) (c : Char) : Char :=
  if c = ' ' then c
  else Char.ofNat ((((c.toNat : Int) - 65 - shift + 26).tmod 26 + 65).toNat)

/-- Embedding of the Encryption I: Caesar Cipher solver on a
`[plaintext, shift]` state (`cipher === ans`). -/
def caesarSolver (state : List Char × Int) (ans : String) : Bool :=
  state.1.map (caesarChar state.2) == ans.toList

/-! ## Encryption II: Vigenère Cipher -/

/-- One character of the Vigenère cipher at index `i`: spaces pass through,
everything else maps via
`String.fromCharCode(((code - 2*65 + keyword.charCodeAt(i % keyword.length)) % 26) + 65)`,
the keyword read cyclically.  For an empty keyword — which no generator
produces — JavaScript would emit the NUL character (via `charCodeAt(NaN)` of
`""`), while this model falls back to the `getD` default. -/
def vigenereChar (key : List Char) (i : Nat) (c : Char) : Char :=
  if c = ' ' then c
  else Char.ofNat ((((c.toNat : Int) - 130 +
    ((key.getD (i % key.length) 'A').toNat : Int)).tmod 26 + 65).toNat)

/-- Embedding of the Encryption II: Vigenère Cipher solver on a
`[plaintext, keyword]` state (`cipher === ans`). -/
def vigenereSolver (state : List Char × List Char) (ans : String) : Bool :=
  List.mapIdx (fun i c => vigenereChar state.2 i c) state.1 == ans.toList

/-! ## The contract-kind registry -/

/-- The kinds of `codingContractTypesMetadata`, in registry order. -/
inductive ContractKind where
  | findLargestPrimeFactor
  | subarrayWithMaximumSum
  | totalWaysToSum
  | totalWaysToSumII
  | spiralizeMatrix
  | arrayJumpingGame
  | arrayJumpingGameII
  | mergeOverlappingIntervals
  | generateIpAddresses
  | algorithmicStockTraderI
  | algorithmicStockTraderII
  | algorithmicStockTraderIII
  | algorithmicStockTraderIV
  | minimumPathSumInATriangle
  | uniquePathsInAGridI
  | uniquePathsInAGridII
  | shortestPathInAGrid
  | sanitizeParenthesesInExpression
  | findAllValidMathExpressions
  | hammingCodesIntegerToEncodedBinary
  | hammingCodesEncodedBinaryToInteger
  | properTwoColoringOfAGraph
  | compressionIRleCompression
  | compressionIILzDecompression
  | compressionIIILzCompression
  | encryptionICaesarCipher
  | encryptionIIVigenereCipher
  | squareRoot
deriving DecidableEq

/-- The state type each kind's solver receives, JavaScript numbers embedded
as integers (`Nat` where the TypeScript value is a count the generator keeps
nonnegative, such as the 2-Coloring vertex count whose negation would make
`new Array(n)` throw). -/
@[reducible] def KindState : ContractKind → Type
  | .findLargestPrimeFactor => Nat
  | .subarrayWithMaximumSum => List Int
  | .totalWaysToSum => JSData
  | .totalWaysToSumII => Int × List Nat
  | .spiralizeMatrix => List (List Int)
  | .arrayJumpingGame => List Int
  | .arrayJumpingGameII => List Int
  | .mergeOverlappingIntervals => List (Int × Int)
  | .generateIpAddresses => List Char
  | .algorithmicStockTraderI => List Int
  | .algorithmicStockTraderII => List Int
  | .algorithmicStockTraderIII => List Int
  | .algorithmicStockTraderIV => Nat × List Int
  | .minimumPathSumInATriangle => List (List Int)
  | .uniquePathsInAGridI => Int × Int
  | .uniquePathsInAGridII => List (List Int)
  | .shortestPathInAGrid => List (List Nat)
  | .sanitizeParenthesesInExpression => String
  | .findAllValidMathExpressions => List Char × Int
  | .hammingCodesIntegerToEncodedBinary => Nat
  | .hammingCodesEncodedBinaryToInteger => List Char
  | .properTwoColoringOfAGraph => Nat × List (Nat × Nat)
  | .compressionIRleCompression => List Char
  | .compressionIILzDecompression => List Char
  | .compressionIIILzCompression => List Char
  | .encryptionICaesarCipher => List Char × Int
  | .encryptionIIVigenereCipher => List Char × List Char
  | .squareRoot => String × String

/-- The registry's solver dispatch: every kind's solver as an
`Option Bool`-valued function, `none` modelling a thrown exception.
Solvers that are total for every state of their type are wrapped in `some`;
the Shortest Path guard models the `TypeError` from `data[0].length` on an
empty grid (unrepresented inside `shortestPathSolver`, whose degenerate
width-0 reading is scoped out by the C1/C9 grid hypotheses). -/
def registrySolver : (k : ContractKind) → KindState k → String → Option Bool
  | .findLargestPrimeFactor, s, ans => some (largestPrimeFactorSolver s ans)
  | .subarrayWithMaximumSum, s, ans => some (subarrayMaxSolver s ans)
  | .totalWaysToSum, s, ans => totalWaysToSumSolver s ans
  | .totalWaysToSumII, s, ans => totalWaysToSumIISolver s ans
  | .spiralizeMatrix, s, ans => spiralizeSolver s ans
  | .arrayJumpingGame, s, ans => some (arrayJumpingSolver s ans)
  | .arrayJumpingGameII, s, ans => some (arrayJumping2Solver s ans)
  | .mergeOverlappingIntervals, s, ans => mergeIntervalsSolver s ans
  | .generateIpAddresses, s, ans => some (generateIpSolver s ans)
  | .algorithmicStockTraderI, s, ans => some (stockTrader1Solver s ans)
  | .algorithmicStockTraderII, s, ans => some (stockTrader2Solver s ans)
  | .algorithmicStockTraderIII, s, ans => some (stockTrader3Solver s ans)
  | .algorithmicStockTraderIV, s, ans => some (stockTraderIVSolver s ans)
  | .minimumPathSumInATriangle, s, ans => triangleSolver s ans
  | .uniquePathsInAGridI, s, ans => uniquePaths1Solver s ans
  | .uniquePathsInAGridII, s, ans => uniquePaths2Solver s ans
  | .shortestPathInAGrid, s, ans => if s.isEmpty then none else some (shortestPathSolver s ans)
  | .sanitizeParenthesesInExpression, s, ans => some (sanitizeSolver s ans)
  | .findAllValidMathExpressions, s, ans => some (mathExprSolver s ans)
  | .hammingCodesIntegerToEncodedBinary, s, ans => some (hammingEncodeSolver s ans)
  | .hammingCodesEncodedBinaryToInteger, s, ans => some (hammingDecodeSolver s ans)
  | .properTwoColoringOfAGraph, s, ans => some (twoColoringSolver s ans)
  | .compressionIRleCompression, s, ans => some (rleSolver s ans.toList)
  | .compressionIILzDecompression, s, ans => some (lzDecompressionSolver s ans)
  | .compressionIIILzCompression, s, ans => some (lzCompressionSolver s ans)
  | .encryptionICaesarCipher, s, ans => some (caesarSolver s ans)
  | .encryptionIIVigenereCipher, s, ans => some (vigenereSolver s ans)
  | .squareRoot, s, ans => some (squareRootSolver s ans)

/-- The shape each kind's generator guarantees of its states, as far as
solver totality needs it — for every kind a (possibly proper) superset of
the generator-producible states, so quantifying over it covers them all.
The comments cite the generator ranges; kinds whose solver is total for
every state of its type get `True`. -/
def GenShaped : (k : ContractKind) → KindState k → Prop
  | .totalWaysToSum, .num d => 0 ≤ d          -- the generator draws integers in [8, 100]
  | .totalWaysToSum, .other => False          -- states are always numbers
  | .totalWaysToSumII, s => 0 ≤ s.1           -- n ∈ [12, 200]
  | .spiralizeMatrix, s => s ≠ []             -- 1..15 rows
  | .mergeOverlappingIntervals, s => s ≠ []   -- 3..20 intervals
  | .minimumPathSumInATriangle, s => s ≠ []   -- 3..12 rows
  | .uniquePathsInAGridI, s => 0 ≤ s.1        -- 2..14 rows
  | .uniquePathsInAGridII, s => s ≠ []        -- 2..14 rows
  | .shortestPathInAGrid, s => s ≠ []         -- 6..12 rows
  | .encryptionIIVigenereCipher, s => s.2 ≠ []  -- the keyword comes from a fixed nonempty list
  | _, _ => True

/-! ## Spec cross-checks of the modelled utilities -/

/-- The spec's Hamming example: 8 encodes to "11110000". -/
theorem hammingEncode_eight :
    hammingEncode 8 = ['1', '1', '1', '1', '0', '0', '0', '0'] := by decide

/-- The spec's Hamming example: 21 encodes to "1001101011". -/
theorem hammingEncode_twentyone :
    hammingEncode 21 = ['1', '0', '0', '1', '1', '0', '1', '0', '1', '1'] := by decide

/-- The spec's Hamming decode examples, syndrome correction included:
"11110000" decodes to 8 and "1001101010" (one flipped bit) to 21. -/
theorem hammingDecode_examples :
    hammingDecode ['1', '1', '1', '1', '0', '0', '0', '0'] = 8 ∧
    hammingDecode ['1', '0', '0', '1', '1', '0', '1', '0', '1', '0'] = 21 := by decide

/-- The spec's LZ example: "5aaabb450723abb" decodes to
"aaabbaaababababaabb". -/
theorem lzDecode_example :
    lzDecode "5aaabb450723abb".toList = some "aaabbaaababababaabb".toList := by decide

/-- The modelled LZ encoder round-trips through the decoder (checked on the
spec's example plaintext). -/
theorem lzEncode_roundtrip_example :
    lzDecode (lzEncode "aaabbaaababababaabb".toList) = some "aaabbaaababababaabb".toList := by
  decide

/-! # Lemmas and claim theorems -/

theorem digitChar_isDigit {d : Nat} (h : d < 10) : (Nat.digitChar d).isDigit = true := by
  interval_cases d <;> decide

theorem digitVal_digitChar {d : Nat} (h : d < 10) : digitVal (Nat.digitChar d) = d := by
  interval_cases d <;> decide

theorem natDigitsRevAux_all_digit (fuel : Nat) :
    ∀ n, ∀ c ∈ natDigitsRevAux fuel n, c.isDigit = true := by
  induction fuel with
  | zero => intro n c hc; simp [natDigitsRevAux] at hc
  | succ fuel ih =>
    intro n c hc
    rw [natDigitsRevAux] at hc
    split at hc
    · simp at hc
    · rcases List.mem_cons.mp hc with hc | hc
      · subst hc; exact digitChar_isDigit (Nat.mod_lt _ (by omega))
      · exact ih _ c hc

theorem natDigitsRev_all_digit (n : Nat) : ∀ c ∈ natDigitsRev n, c.isDigit = true :=
  natDigitsRevAux_all_digit n n

theorem natDigitsRev_ne_nil {n : Nat} (h : n ≠ 0) : natDigitsRev n ≠ [] := by
  obtain ⟨k, rfl⟩ : ∃ k, n = k + 1 := ⟨n - 1, by omega⟩
  rw [natDigitsRev, natDigitsRevAux]
  simp

theorem natToStrList_all_digit (n : Nat) : ∀ c ∈ natToStrList n, c.isDigit = true := by
  rw [natToStrList]
  split
  · intro c hc; simp at hc; subst hc; decide
  · intro c hc; exact natDigitsRev_all_digit n c (List.mem_reverse.mp hc)

theorem natToStrList_ne_nil (n : Nat) : natToStrList n ≠ [] := by
  rw [natToStrList]
  split
  · simp
  · rename_i h
    simp only [ne_eq, List.reverse_eq_nil_iff]
    exact natDigitsRev_ne_nil h

theorem decimalValue_reverse (l : List Char) :
    decimalValue l.reverse = decimalValueRev l := by
  rw [decimalValue, decimalValueRev, List.foldl_reverse]
  congr 1
  funext c a
  omega

theorem decimalValueRev_natDigitsRevAux (fuel : Nat) :
    ∀ n, n ≤ fuel → decimalValueRev (natDigitsRevAux fuel n) = n := by
  induction fuel with
  | zero =>
    intro n hn
    interval_cases n
    rfl
  | succ fuel ih =>
    intro n hn
    rw [natDigitsRevAux]
    split
    · rename_i h; subst h; rfl
    · rename_i h
      rw [decimalValueRev, List.foldr_cons]
      have hlt : n / 10 < n := Nat.div_lt_self (Nat.pos_of_ne_zero h) (by omega)
      have h1 := ih (n / 10) (by omega)
      rw [decimalValueRev] at h1
      rw [h1, digitVal_digitChar (Nat.mod_lt _ (by omega))]
      omega

theorem decimalValueRev_natDigitsRev (n : Nat) :
    decimalValueRev (natDigitsRev n) = n :=
  decimalValueRev_natDigitsRevAux n n (Nat.le_refl n)

theorem decimalValue_natToStrList (n : Nat) : decimalValue (natToStrList n) = n := by
  rw [natToStrList]
  split
  · rename_i h; subst h; decide
  · rw [decimalValue_reverse]; exact decimalValueRev_natDigitsRev n

theorem isDigit_not_jsWs {c : Char} (h : c.isDigit = true) : isJsWs c = false := by
  by_contra hw
  have hw2 : isJsWs c = true := by
    cases hx : isJsWs c
    · exact absurd hx hw
    · rfl
  simp only [isJsWs, Bool.or_eq_true, decide_eq_true_eq] at hw2
  rcases hw2 with ((((h1 | h1) | h1) | h1) | h1) | h1 <;> subst h1 <;> simp at h

theorem isDigit_ne_dash {c : Char} (h : c.isDigit = true) : c ≠ '-' := by
  intro hc; subst hc; simp at h

theorem isDigit_ne_plus {c : Char} (h : c.isDigit = true) : c ≠ '+' := by
  intro hc; subst hc; simp at h

theorem dropWhile_eq_self_of_not {p : Char → Bool} {l : List Char}
    (h : ∀ c ∈ l, p c = false) : l.dropWhile p = l := by
  cases l with
  | nil => rfl
  | cons c rest => rw [List.dropWhile_cons_of_neg (by simp [h c (by simp)])]

theorem takeWhile_append_all {p : Char → Bool} {l r : List Char}
    (hl : ∀ c ∈ l, p c = true) (hr : ∀ c, r.head? = some c → p c = false) :
    (l ++ r).takeWhile p = l := by
  induction l with
  | nil =>
    simp only [List.nil_append]
    cases r with
    | nil => rfl
    | cons c rest => rw [List.takeWhile_cons_of_neg (by simp [hr c rfl])]
  | cons c rest ih =>
    rw [List.cons_append, List.takeWhile_cons_of_pos (hl c (by simp))]
    rw [ih (fun x hx => hl x (by simp [hx]))]

theorem toList_mk (l : List Char) : (String.mk l).toList = l := rfl

/-- The tolerant radix-10 parse accepts the decimal text of any natural
number followed by arbitrary non-digit-headed garbage. -/
theorem parseIntJS10_natRepr_suffix (v : Nat) (suffix : List Char)
    (hs : ∀ c, suffix.head? = some c → c.isDigit = false) :
    parseIntJS10 (String.mk (natToStrList v ++ suffix)) = some (v : Int) := by
  obtain ⟨d, ds, hds⟩ : ∃ d ds, natToStrList v = d :: ds := by
    cases h : natToStrList v with
    | nil => exact absurd h (natToStrList_ne_nil v)
    | cons d ds => exact ⟨d, ds, rfl⟩
  have hdig : ∀ c ∈ natToStrList v, c.isDigit = true := natToStrList_all_digit v
  have hddig : d.isDigit = true := hdig d (by rw [hds]; simp)
  have htake : (natToStrList v ++ suffix).takeWhile Char.isDigit = natToStrList v :=
    takeWhile_append_all hdig hs
  rw [parseIntJS10, toList_mk]
  rw [hds, List.cons_append, parseIntJS10L,
    List.dropWhile_cons_of_neg (by simp [isDigit_not_jsWs hddig])]
  rw [parseSignedDec]
  rw [if_neg (isDigit_ne_dash hddig), if_neg (isDigit_ne_plus hddig)]
  rw [parseIntCore]
  simp only [← List.cons_append, ← hds, htake]
  simp only [List.isEmpty_eq_true, natToStrList_ne_nil v, if_false]
  rw [decimalValue_natToStrList]
  rfl

theorem dropWhile_ws_eq_self {l : List Char} (h : ∀ c ∈ l, c.isDigit = true) :
    l.dropWhile isJsWs = l :=
  dropWhile_eq_self_of_not (fun c hc => isDigit_not_jsWs (h c hc))

/-- The `BigInt` model parses back the decimal text of any integer. -/
theorem parseBigInt_intToStr (i : Int) : parseBigInt (intToStr i) = some i := by
  have hdig := natToStrList_all_digit i.natAbs
  have hne := natToStrList_ne_nil i.natAbs
  by_cases hi : i < 0
  · have hil : intToStrList i = '-' :: natToStrList i.natAbs := by
      rw [intToStrList, if_pos hi]
    have h1 : ('-' :: natToStrList i.natAbs).dropWhile isJsWs = '-' :: natToStrList i.natAbs :=
      dropWhile_eq_self_of_not (by
        intro c hc
        rcases List.mem_cons.mp hc with hc | hc
        · subst hc; decide
        · exact isDigit_not_jsWs (hdig c hc))
    have h2 : ('-' :: natToStrList i.natAbs).reverse.dropWhile isJsWs =
        ('-' :: natToStrList i.natAbs).reverse :=
      dropWhile_eq_self_of_not (by
        intro c hc
        rw [List.mem_reverse] at hc
        rcases List.mem_cons.mp hc with hc | hc
        · subst hc; decide
        · exact isDigit_not_jsWs (hdig c hc))
    rw [parseBigInt, intToStr, toList_mk, hil, h1, h2, List.reverse_reverse]
    rw [parseBigIntList, if_pos rfl]
    rw [if_pos ⟨hne, List.all_eq_true.mpr (fun c hc => hdig c hc)⟩]
    rw [decimalValue_natToStrList]
    congr 1
    omega
  · have hil : intToStrList i = natToStrList i.natAbs := by
      rw [intToStrList, if_neg hi]
    obtain ⟨d, ds, hds⟩ : ∃ d ds, natToStrList i.natAbs = d :: ds := by
      cases h : natToStrList i.natAbs with
      | nil => exact absurd h hne
      | cons d ds => exact ⟨d, ds, rfl⟩
    have h1 : (natToStrList i.natAbs).dropWhile isJsWs = natToStrList i.natAbs :=
      dropWhile_ws_eq_self hdig
    have h2 : (natToStrList i.natAbs).reverse.dropWhile isJsWs =
        (natToStrList i.natAbs).reverse :=
      dropWhile_eq_self_of_not (by
        intro c hc
        exact isDigit_not_jsWs (hdig c (List.mem_reverse.mp hc)))
    have hddig : d.isDigit = true := hdig d (by rw [hds]; simp)
    rw [parseBigInt, intToStr, toList_mk, hil, h1, h2, List.reverse_reverse, hds]
    rw [parseBigIntList]
    rw [if_neg (isDigit_ne_dash hddig), if_neg (isDigit_ne_plus hddig)]
    rw [if_pos (by rw [← hds]; exact List.all_eq_true.mpr (fun c hc => hdig c hc))]
    rw [← hds, decimalValue_natToStrList]
    congr 1
    omega

theorem list_all_congr {α : Type} {l : List α} {f g : α → Bool}
    (h : ∀ a ∈ l, f a = g a) : l.all f = l.all g := by
  induction l with
  | nil => rfl
  | cons a rest ih =>
    simp only [List.all_cons]
    rw [h a (by simp), ih (fun b hb => h b (by simp [hb]))]

/-- C5: the Square Root kind's `getData` is `BigInt(state[0])² + BigInt(state[1])`,
its solver accepts exactly the answers textually equal to the stored root
string `state[0]`, and the solver never looks at the offset component (hence
at nothing derived from the displayed data). -/
theorem c5_square_root_literal_comparison :
    (∀ root offset : Int,
      squareRootGetData (intToStr root, intToStr offset) = some (root * root + offset)) ∧
    (∀ (state : String × String) (ans : String),
      squareRootSolver state ans = true ↔ ans = state.1) ∧
    (∀ (root o1 o2 ans : String),
      squareRootSolver (root, o1) ans = squareRootSolver (root, o2) ans) := by
  refine ⟨?_, ?_, ?_⟩
  · intro r o
    rw [squareRootGetData]
    rw [parseBigInt_intToStr, parseBigInt_intToStr]
  · intro s ans
    rw [squareRootSolver]
    constructor
    · intro h; exact (beq_iff_eq.mp h).symm
    · intro h; exact beq_iff_eq.mpr h.symm
  · intro root o1 o2 ans
    rfl

/-- C8 counterexample: Algorithmic Stock Trader I is a kind whose canonical
answer is a single integer, the correct answer text for the generator-shaped
state `[1, 2, 1]` is `"1"` (accepted), yet the same text with a trailing
non-numeric suffix is rejected — the claimed registry-wide suffix tolerance
fails. -/
theorem c8_stock_trader1_counterexample :
    stockTrader1Solver [1, 2, 1] "1" = true ∧ stockTrader1Solver [1, 2, 1] "1abc" = false := by
  constructor <;> decide

/-- C8 (amended): kinds whose solver compares through `parseInt` (here Find
Largest Prime Factor) accept the correct decimal text followed by any
non-digit-headed suffix; Algorithmic Stock Trader I compares the answer text
literally against `maxSoFar.toString()` and rejects every nonempty suffix. -/
theorem c8_tolerant_parse_amended :
    (∀ (data : Nat) (suffix : List Char),
      (∀ c, suffix.head? = some c → c.isDigit = false) →
      largestPrimeFactorSolver data (String.mk (natToStrList (lpfValue data) ++ suffix)) = true) ∧
    (∀ (data : List Int) (suffix : List Char), suffix ≠ [] →
      stockTrader1Solver data (String.mk (intToStrList (stockTrader1Value data) ++ suffix)) = false) := by
  constructor
  · intro data suffix hs
    rw [largestPrimeFactorSolver, parseIntJS10_natRepr_suffix _ _ hs]
    simp
  · intro data suffix hs
    rw [stockTrader1Solver, intToStr]
    apply beq_eq_false_iff_ne.mpr
    intro h
    have hlist : intToStrList (stockTrader1Value data) =
        intToStrList (stockTrader1Value data) ++ suffix := by
      have := congrArg String.toList h
      simpa [toList_mk] using this
    have := congrArg List.length hlist
    simp only [List.length_append] at this
    exact hs (List.length_eq_zero.mp (by omega))

theorem c8_tolerant_parse_amended_witness :
    largestPrimeFactorSolver 500 (String.mk (natToStrList (lpfValue 500) ++ ['a', 'b', 'c'])) = true ∧
    stockTrader1Solver [1, 2, 1] (String.mk (intToStrList (stockTrader1Value [1, 2, 1]) ++ ['x'])) = false :=
  ⟨c8_tolerant_parse_amended.1 500 ['a', 'b', 'c']
      (by intro c hc; simp only [List.head?_cons, Option.some.injEq] at hc; subst hc; decide),
   c8_tolerant_parse_amended.2 [1, 2, 1] ['x'] (by decide)⟩

/-- C6: for every kind in the registry, every state shaped as its generator
produces it, and every answer string (however malformed), the solver
terminates and returns a boolean — `none`, modelling a thrown exception,
never arises; in particular the explicit `throw` in the Total Ways to Sum
solver is unreachable for generator-produced states (integers 8..100), and
an answer there whose `parseInt` is `NaN` yields `false` rather than a
fault. -/
theorem c6_registry_solver_totality :
    (∀ (k : ContractKind) (s : KindState k) (ans : String),
      GenShaped k s → (registrySolver k s ans).isSome = true) ∧
    (∀ (d : Int) (ans : String), 8 ≤ d → d ≤ 100 →
      (registrySolver .totalWaysToSum (.num d) ans).isSome = true) ∧
    (∀ (d : Int) (ans : String), 0 ≤ d → parseIntJS10 ans = none →
      registrySolver .totalWaysToSum (.num d) ans = some false) := by
  have twts : ∀ (d : Int) (ans : String), 0 ≤ d →
      (registrySolver .totalWaysToSum (.num d) ans).isSome = true := by
    intro d ans h0
    show (totalWaysToSumSolver (.num d) ans).isSome = true
    rw [totalWaysToSumSolver, if_neg (by omega), if_neg (by omega)]
    rfl
  refine ⟨?_, fun d ans h8 _ => twts d ans (by omega), ?_⟩
  · intro k s ans h
    cases k with
    | findLargestPrimeFactor => rfl
    | subarrayWithMaximumSum => rfl
    | totalWaysToSum =>
      cases s with
      | num d => exact twts d ans h
      | other => exact (h : False).elim
    | totalWaysToSumII =>
      obtain ⟨n, l⟩ := s
      have hn : (0 : Int) ≤ n := h
      show (totalWaysToSumIISolver (n, l) ans).isSome = true
      rw [totalWaysToSumIISolver, if_neg (by omega)]
      rfl
    | spiralizeMatrix =>
      cases s with
      | nil => exact absurd rfl h
      | cons a t => rfl
    | arrayJumpingGame => rfl
    | arrayJumpingGameII => rfl
    | mergeOverlappingIntervals =>
      cases s with
      | nil => exact absurd rfl h
      | cons a t => rfl
    | generateIpAddresses => rfl
    | algorithmicStockTraderI => rfl
    | algorithmicStockTraderII => rfl
    | algorithmicStockTraderIII => rfl
    | algorithmicStockTraderIV => rfl
    | minimumPathSumInATriangle =>
      cases s with
      | nil => exact absurd rfl h
      | cons a t => rfl
    | uniquePathsInAGridI =>
      obtain ⟨n, m⟩ := s
      have hn : (0 : Int) ≤ n := h
      show (uniquePaths1Solver (n, m) ans).isSome = true
      rw [uniquePaths1Solver]
      rw [if_neg (by omega)]
      rfl
    | uniquePathsInAGridII =>
      cases s with
      | nil => exact absurd rfl h
      | cons a t => rfl
    | shortestPathInAGrid =>
      cases s with
      | nil => exact absurd rfl h
      | cons a t => rfl
    | sanitizeParenthesesInExpression => rfl
    | findAllValidMathExpressions => rfl
    | hammingCodesIntegerToEncodedBinary => rfl
    | hammingCodesEncodedBinaryToInteger => rfl
    | properTwoColoringOfAGraph => rfl
    | compressionIRleCompression => rfl
    | compressionIILzDecompression => rfl
    | compressionIIILzCompression => rfl
    | encryptionICaesarCipher => rfl
    | encryptionIIVigenereCipher => rfl
    | squareRoot => rfl
  · intro d ans h0 hnan
    show totalWaysToSumSolver (.num d) ans = some false
    rw [totalWaysToSumSolver, if_neg (by omega), if_neg (by omega), hnan]

theorem c6_registry_solver_totality_witness :
    (registrySolver .spiralizeMatrix [[1, 2], [3, 4]] "1,2,4,3").isSome = true ∧
    (registrySolver .totalWaysToSum (.num 8) "abc").isSome = true ∧
    registrySolver .totalWaysToSum (.num 8) "abc" = some false :=
  ⟨c6_registry_solver_totality.1 .spiralizeMatrix [[1, 2], [3, 4]] "1,2,4,3"
      (by show ([[1, 2], [3, 4]] : List (List Int)) ≠ []; decide),
   c6_registry_solver_totality.2.1 8 "abc" (by decide) (by decide),
   c6_registry_solver_totality.2.2 8 "abc" (by decide) (by decide)⟩

/-- C10: the submitted-coloring check of the Proper 2-Coloring solver reads
only the entries at vertices that occur in some edge; two length-`n` parsed
colorings agreeing on all such vertices (the others holding arbitrary values,
`NaN`/`undefined` included) are accepted or rejected together. -/
theorem c10_two_coloring_untouched_vertices :
    ∀ (n : Nat) (edges : List (Nat × Nat)) (c1 c2 : List (Option Int)),
      c1.length = n → c2.length = n →
      (∀ v, (∃ e ∈ edges, e.1 = v ∨ e.2 = v) → c1.getD v none = c2.getD v none) →
      coloringCheck (n, edges) c1 = coloringCheck (n, edges) c2 := by
  intro n edges c1 c2 h1 h2 hagree
  rw [coloringCheck, coloringCheck]
  simp only [h1, h2, if_pos rfl]
  apply list_all_congr
  intro e he
  have ha : c1.getD e.1 none = c2.getD e.1 none := hagree e.1 ⟨e, he, Or.inl rfl⟩
  have hb : c1.getD e.2 none = c2.getD e.2 none := hagree e.2 ⟨e, he, Or.inr rfl⟩
  simp only [ha, hb]

theorem jsNeq_of_valid {a b : Option Int} (ha : validColor a = true)
    (hb : validColor b = true) : jsNeq a b = true ↔ a ≠ b := by
  cases a with
  | none => simp [validColor] at ha
  | some x =>
    cases b with
    | none => simp [validColor] at hb
    | some y => simp [jsNeq, bne_iff_ne]

/-- C2: the 2-coloring solver accepts an answer canonicalizing to the empty
string exactly when its own greedy propagation finds a same-colour adjacency;
a nonempty answer is accepted exactly when the parsed colour list has length
`n` and every edge's two entries are both in {0, 1} and differ.  On
`[4,[[0,2],[0,3],[1,2],[1,3]]]` the coloring `[0,0,1,1]` is accepted and
`[0,1,1,0]` is rejected. -/
theorem c2_two_coloring_solver :
    (∀ (data : Nat × List (Nat × Nat)) (ans : String),
      (removeBracketsFromArrayString ans = "" →
        (twoColoringSolver data ans = true ↔ twoColoringConflict data = true)) ∧
      (removeBracketsFromArrayString ans ≠ "" →
        (twoColoringSolver data ans = true ↔
          (twoColoringParse ans).length = data.1 ∧
          ∀ e ∈ data.2,
            validColor ((twoColoringParse ans).getD e.1 none) = true ∧
            validColor ((twoColoringParse ans).getD e.2 none) = true ∧
            (twoColoringParse ans).getD e.1 none ≠ (twoColoringParse ans).getD e.2 none))) ∧
    twoColoringSolver (4, [(0, 2), (0, 3), (1, 2), (1, 3)]) "[0,0,1,1]" = true ∧
    twoColoringSolver (4, [(0, 2), (0, 3), (1, 2), (1, 3)]) "[0,1,1,0]" = false := by
  refine ⟨?_, by decide, by decide⟩
  intro data ans
  constructor
  · intro h
    rw [twoColoringSolver, if_pos (by simp [h])]
  · intro h
    rw [twoColoringSolver, if_neg (by simp [h]), coloringCheck]
    by_cases hlen : (twoColoringParse ans).length = data.1
    · rw [if_pos hlen]
      rw [List.all_eq_true]
      constructor
      · intro hall
        refine ⟨hlen, ?_⟩
        intro e he
        have := hall e he
        simp only [Bool.and_eq_true] at this
        obtain ⟨⟨ha, hb⟩, hneq⟩ := this
        exact ⟨ha, hb, (jsNeq_of_valid ha hb).mp hneq⟩
      · intro hrhs e he
        obtain ⟨ha, hb, hne⟩ := hrhs.2 e he
        simp only [Bool.and_eq_true]
        exact ⟨⟨ha, hb⟩, (jsNeq_of_valid ha hb).mpr hne⟩
    · rw [if_neg hlen]
      constructor
      · intro hfalse; exact absurd hfalse (by simp)
      · intro hrhs; exact absurd hrhs.1 hlen

theorem c2_two_coloring_solver_witness :
    (twoColoringSolver (1, []) "" = true ↔ twoColoringConflict (1, []) = true) ∧
    (twoColoringSolver (4, [(0, 2), (0, 3), (1, 2), (1, 3)]) "[0,0,1,1]" = true ↔
      (twoColoringParse "[0,0,1,1]").length = 4 ∧
      ∀ e ∈ [(0, 2), (0, 3), (1, 2), (1, 3)],
        validColor ((twoColoringParse "[0,0,1,1]").getD e.1 none) = true ∧
        validColor ((twoColoringParse "[0,0,1,1]").getD e.2 none) = true ∧
        (twoColoringParse "[0,0,1,1]").getD e.1 none ≠
          (twoColoringParse "[0,0,1,1]").getD e.2 none) :=
  ⟨(c2_two_coloring_solver.1 (1, []) "").1 (by decide),
   (c2_two_coloring_solver.1 (4, [(0, 2), (0, 3), (1, 2), (1, 3)]) "[0,0,1,1]").2 (by decide)⟩

theorem rle_len_cond (c : Char) :
    ((c.toNat : Int) - 48 < 0 ∨ 9 < (c.toNat : Int) - 48) ↔ isAsciiDigit c = false := by
  rw [isAsciiDigit]
  simp only [Bool.and_eq_false_iff]
  constructor
  · intro h
    rcases h with h | h
    · left; simpa [decide_eq_false_iff_not] using (by omega : ¬(48 ≤ c.toNat))
    · right; simpa [decide_eq_false_iff_not] using (by omega : ¬(c.toNat ≤ 57))
  · intro h
    rcases h with h | h <;> simp only [decide_eq_false_iff_not] at h <;> omega

theorem rleDecodePairs_eq_aux :
    ∀ (n : Nat) (ans : List Char), ans.length ≤ n → ans.length % 2 = 0 →
      rleDecodePairs ans =
        if (evenIndexChars ans).all isAsciiDigit then some (rleClaimDecode ans) else none := by
  intro n
  induction n with
  | zero =>
    intro ans hlen _
    have : ans = [] := List.length_eq_zero.mp (by omega)
    subst this
    rfl
  | succ n ih =>
    intro ans hlen hpar
    match ans with
    | [] => rfl
    | [c] => simp at hpar
    | c1 :: c2 :: rest =>
      have hrest2 : rest.length % 2 = 0 := by
        simp only [List.length_cons] at hpar
        omega
      have hrestlen : rest.length ≤ n := by
        simp only [List.length_cons] at hlen
        omega
      rw [rleDecodePairs, evenIndexChars, rleClaimDecode]
      by_cases hd : isAsciiDigit c1 = true
      · rw [if_neg (by rw [rle_len_cond c1]; simp [hd]), ih rest hrestlen hrest2]
        by_cases hall : (evenIndexChars rest).all isAsciiDigit = true
        · rw [if_pos hall, if_pos (by simp [List.all_cons, hd, hall])]
          have hcount : ((c1.toNat : Int) - 48).toNat = digitVal c1 := by
            rw [digitVal]; omega
          simp only [Option.map_some', hcount]
        · rw [if_neg hall,
            if_neg (by simp only [List.all_cons, Bool.and_eq_true]; tauto)]
          rfl
      · rw [if_pos ((rle_len_cond c1).mpr (by simpa using hd))]
        rw [if_neg (by simp only [List.all_cons, Bool.and_eq_true]; tauto)]

theorem rleDecodePairs_eq (ans : List Char) (h : ans.length % 2 = 0) :
    rleDecodePairs ans =
      if (evenIndexChars ans).all isAsciiDigit then some (rleClaimDecode ans) else none :=
  rleDecodePairs_eq_aux ans.length ans (Nat.le_refl _) h

theorem rleChunklenAux_eq : ∀ fuel r, r ≤ fuel → rleChunklenAux fuel r = (r + 8) / 9 * 2 := by
  intro fuel
  induction fuel with
  | zero =>
    intro r hr
    interval_cases r
    rfl
  | succ fuel ih =>
    intro r hr
    rw [rleChunklenAux]
    by_cases h0 : r = 0
    · subst h0; rfl
    · rw [if_neg h0, ih (r - 9) (by omega)]
      omega

theorem rleChunklen_eq (r : Nat) : rleChunklen r = (r + 8) / 9 * 2 :=
  rleChunklenAux_eq r r (Nat.le_refl r)

theorem rleMinAux_eq_claim :
    ∀ fuel l, rleMinLengthAux fuel l = ((runsOfAux fuel l).map (fun r => (r.2 + 8) / 9 * 2)).sum := by
  intro fuel
  induction fuel with
  | zero => intro l; rfl
  | succ fuel ih =>
    intro l
    cases l with
    | nil => rfl
    | cons c rest =>
      rw [rleMinLengthAux, runsOfAux, List.map_cons, List.sum_cons, rleChunklen_eq, ih]

theorem rleMinLength_eq_claim (l : List Char) : rleMinLength l = rleClaimMin l := by
  rw [rleMinLength, rleClaimMin, runsOf]
  exact rleMinAux_eq_claim _ _

/-- C3: the RLE solver accepts exactly the even-length answers whose
even-index characters are all decimal digits, whose chunk decoding reproduces
the plaintext, and whose length is at most the theoretical minimum (the sum
over maximal runs of `ceil(run/9) * 2`); `"5a1b3c"` is accepted and
`"5a1b2c1c"` rejected for plaintext `"aaaaabccc"`. -/
theorem c3_rle_solver :
    (∀ (plain ans : List Char),
      rleSolver plain ans = true ↔
        (ans.length % 2 = 0 ∧
         (∀ c ∈ evenIndexChars ans, isAsciiDigit c = true) ∧
         rleClaimDecode ans = plain ∧
         ans.length ≤ rleClaimMin plain)) ∧
    rleSolver "aaaaabccc".toList "5a1b3c".toList = true ∧
    rleSolver "aaaaabccc".toList "5a1b2c1c".toList = false := by
  refine ⟨?_, by decide, by decide⟩
  intro plain ans
  rw [rleSolver]
  by_cases hpar : ans.length % 2 = 0
  · have hdecode := rleDecodePairs_eq ans hpar
    rw [if_neg (by omega)]
    by_cases hall : (evenIndexChars ans).all isAsciiDigit = true
    · rw [if_pos hall] at hdecode
      by_cases hdec : rleClaimDecode ans = plain
      · simp only [hdecode, if_neg (show ¬(rleClaimDecode ans ≠ plain) by simp [hdec]),
          rleMinLength_eq_claim, decide_eq_true_eq]
        constructor
        · intro hle
          exact ⟨hpar, List.all_eq_true.mp hall, hdec, hle⟩
        · intro hrhs
          exact hrhs.2.2.2
      · simp only [hdecode, if_pos (show rleClaimDecode ans ≠ plain from hdec)]
        constructor
        · intro hf; exact absurd hf (by simp)
        · intro hrhs; exact absurd hrhs.2.2.1 hdec
    · rw [if_neg hall] at hdecode
      simp only [hdecode]
      constructor
      · intro hf; exact absurd hf (by simp)
      · intro hrhs
        exact absurd (List.all_eq_true.mpr hrhs.2.1) hall
  · rw [if_pos (by omega)]
    constructor
    · intro hf; exact absurd hf (by simp)
    · intro hrhs; exact absurd hrhs.1 hpar

theorem fnUpdate_self (f : Nat → Int) (j : Nat) (v : Int) : fnUpdate f j v j = v := by
  rw [fnUpdate, if_pos rfl]

theorem fnUpdate_ne {f : Nat → Int} {j v i} (h : i ≠ j) : fnUpdate f j v i = f i := by
  rw [fnUpdate, if_neg h]

/-- The descending inner loop of the Stock Trader IV dynamic program acts as
one simultaneous update of indices 1..m: each `rele[j]`/`hold[j]` is computed
from the values before the current price iteration. -/
theorem stIVInner_spec (cur : Int) :
    ∀ (m : Nat) (hold rele : Nat → Int) (j : Nat),
      (stIVInner cur m hold rele).1 j =
        (if 1 ≤ j ∧ j ≤ m then max (hold j) (rele (j - 1) - cur) else hold j) ∧
      (stIVInner cur m hold rele).2 j =
        (if 1 ≤ j ∧ j ≤ m then max (rele j) (hold j + cur) else rele j) := by
  intro m
  induction m with
  | zero =>
    intro hold rele j
    rw [stIVInner]
    constructor <;> rw [if_neg (by omega)]
  | succ m ih =>
    intro hold rele j
    have hr2m : fnUpdate rele (m + 1) (max (rele (m + 1)) (hold (m + 1) + cur)) m = rele m :=
      fnUpdate_ne (by omega)
    simp only [stIVInner, hr2m]
    obtain ⟨ih1, ih2⟩ := ih
      (fnUpdate hold (m + 1) (max (hold (m + 1)) (rele m - cur)))
      (fnUpdate rele (m + 1) (max (rele (m + 1)) (hold (m + 1) + cur))) j
    rw [ih1, ih2]
    constructor
    · by_cases h1 : 1 ≤ j ∧ j ≤ m
      · rw [if_pos h1, if_pos (by omega), fnUpdate_ne (by omega), fnUpdate_ne (by omega)]
      · by_cases h2 : j = m + 1
        · subst h2
          rw [if_neg h1, if_pos (by omega), fnUpdate_self, Nat.add_sub_cancel]
        · rw [if_neg h1, if_neg (by omega), fnUpdate_ne (by omega)]
    · by_cases h1 : 1 ≤ j ∧ j ≤ m
      · rw [if_pos h1, if_pos (by omega), fnUpdate_ne (by omega), fnUpdate_ne (by omega)]
      · by_cases h2 : j = m + 1
        · subst h2
          rw [if_neg h1, if_pos (by omega), fnUpdate_self]
        · rw [if_neg h1, if_neg (by omega), fnUpdate_ne (by omega)]

theorem max_shift_right (G prev p : Int) :
    max G (G - prev + p) = G + max (p - prev) 0 := by
  rcases le_total p prev with h | h
  · rw [max_eq_left (by omega), max_eq_right (by omega)]
    omega
  · rw [max_eq_right (by omega), max_eq_left (by omega)]
    omega

theorem max_shift_hold (G prev p : Int) :
    max (G - prev) (G - p) = G + max (p - prev) 0 - p := by
  rcases le_total p prev with h | h
  · rw [max_eq_right (by omega), max_eq_right (by omega)]
    omega
  · rw [max_eq_left (by omega), max_eq_left (by omega)]
    omega

/-- Invariant propagation for the Stock Trader IV outer loop: once enough
transactions remain relative to the number of processed prices, `rele[j]`
carries the greedy prefix profit `G` and `hold[j]` carries `G - prev`. -/
theorem stIVOuter_rele_eq :
    ∀ (rest : List Int) (k t : Nat) (prev G : Int) (hold rele : Nat → Int),
      (∀ j, 1 ≤ j → j ≤ k → t + 1 ≤ 2 * j → rele j = G) →
      (∀ j, 1 ≤ j → j ≤ k → t + 2 ≤ 2 * j → hold j = G - prev) →
      t + 1 + rest.length ≤ 2 * k → 1 ≤ k →
      (stIVOuter k rest hold rele).2 k = G + sumPosDiffs prev rest := by
  intro rest
  induction rest with
  | nil =>
    intro k t prev G hold rele ha _ hk hk1
    rw [stIVOuter, sumPosDiffs]
    simpa using ha k hk1 (Nat.le_refl k) (by simpa using hk)
  | cons p rest ih =>
    intro k t prev G hold rele ha hb hk hk1
    rw [stIVOuter, sumPosDiffs]
    have ha2 : ∀ j, 1 ≤ j → j ≤ k → (t + 1) + 1 ≤ 2 * j →
        (stIVInner p k hold rele).2 j = G + max (p - prev) 0 := by
      intro j hj1 hjk hjt
      rw [(stIVInner_spec p k hold rele j).2, if_pos ⟨hj1, hjk⟩,
        ha j hj1 hjk (by omega), hb j hj1 hjk (by omega)]
      exact max_shift_right G prev p
    have hb2 : ∀ j, 1 ≤ j → j ≤ k → (t + 1) + 2 ≤ 2 * j →
        (stIVInner p k hold rele).1 j = (G + max (p - prev) 0) - p := by
      intro j hj1 hjk hjt
      rw [(stIVInner_spec p k hold rele j).1, if_pos ⟨hj1, hjk⟩,
        hb j hj1 hjk (by omega), ha (j - 1) (by omega) (by omega) (by omega)]
      exact max_shift_hold G prev p
    have := ih k (t + 1) p (G + max (p - prev) 0)
      (stIVInner p k hold rele).1 (stIVInner p k hold rele).2 ha2 hb2
      (by simp only [List.length_cons] at hk; omega) hk1
    rw [this]
    omega

/-- The DP value `rele[k]` equals the greedy sum of positive differences when
`2k` exceeds the number of prices. -/
theorem stIVRele_eq_greedy (k : Nat) (prices : List Int)
    (h2 : 2 ≤ prices.length) (hk : prices.length < 2 * k)
    (hbound : ∀ p ∈ prices, 0 ≤ p ∧ p ≤ 9007199254740991) :
    stIVRele k prices = stockIVGreedy prices := by
  obtain ⟨p0, rest, rfl⟩ : ∃ p0 rest, prices = p0 :: rest := by
    cases prices with
    | nil => simp at h2
    | cons p0 rest => exact ⟨p0, rest, rfl⟩
  have hmin : minSafeNeg = -9007199254740991 := by norm_num [minSafeNeg]
  have hp0 := hbound p0 (by simp)
  have hk1 : 1 ≤ k := by simp only [List.length_cons] at hk; omega
  rw [stIVRele, stIVOuter, stockIVGreedy]
  have ha : ∀ j, 1 ≤ j → j ≤ k → 0 + 1 ≤ 2 * j →
      (stIVInner p0 k (fun _ => minSafeNeg) (fun _ => 0)).2 j = 0 := by
    intro j hj1 hjk _
    rw [(stIVInner_spec p0 k (fun _ => minSafeNeg) (fun _ => 0) j).2, if_pos ⟨hj1, hjk⟩]
    rw [max_eq_left (by omega)]
  have hb : ∀ j, 1 ≤ j → j ≤ k → 0 + 2 ≤ 2 * j →
      (stIVInner p0 k (fun _ => minSafeNeg) (fun _ => 0)).1 j = 0 - p0 := by
    intro j hj1 hjk _
    rw [(stIVInner_spec p0 k (fun _ => minSafeNeg) (fun _ => 0) j).1, if_pos ⟨hj1, hjk⟩]
    rw [max_eq_right (by omega)]
  have := stIVOuter_rele_eq rest k 0 p0 0
    (stIVInner p0 k (fun _ => minSafeNeg) (fun _ => 0)).1
    (stIVInner p0 k (fun _ => minSafeNeg) (fun _ => 0)).2 ha hb
    (by simp only [List.length_cons] at hk; omega) hk1
  rw [this]
  omega

/-- C4: for a state `[k, prices]` with at least two prices and `k > len/2`
(integrally, `len < 2k`, with prices in the generator's safe range), the
special-cased greedy branch computes exactly the general dynamic program's
`rele[k]`, so the two branches accept exactly the same answer strings. -/
theorem c4_stock_trader_iv_branch_equivalence :
    ∀ (k : Nat) (prices : List Int),
      2 ≤ prices.length → prices.length < 2 * k →
      (∀ p ∈ prices, 0 ≤ p ∧ p ≤ 9007199254740991) →
      stockIVGreedy prices = stIVRele k prices ∧
      ∀ ans : String,
        stockTraderIVSolver (k, prices) ans = stockTraderIVSolverGeneral (k, prices) ans := by
  intro k prices h2 hk hbound
  have hval := stIVRele_eq_greedy k prices h2 hk hbound
  refine ⟨hval.symm, ?_⟩
  intro ans
  rw [stockTraderIVSolver, stockTraderIVSolverGeneral]
  simp only [if_neg (show ¬(prices.length < 2) by omega), if_pos hk, hval]

theorem c4_stock_trader_iv_branch_equivalence_witness :
    stockIVGreedy [1, 3, 2, 4] = stIVRele 3 [1, 3, 2, 4] ∧
    stockTraderIVSolver (3, [1, 3, 2, 4]) "4" =
      stockTraderIVSolverGeneral (3, [1, 3, 2, 4]) "4" :=
  ⟨(c4_stock_trader_iv_branch_equivalence 3 [1, 3, 2, 4] (by decide) (by decide) (by decide)).1,
   (c4_stock_trader_iv_branch_equivalence 3 [1, 3, 2, 4] (by decide) (by decide) (by decide)).2 "4"⟩

theorem dirDelta_none_iff (c : Char) : dirDelta c = none ↔ isDirChar c = false := by
  rw [dirDelta.eq_def, isDirChar]
  split <;> simp_all

theorem dirDelta_some_isDirChar {c : Char} {dd : Int × Int} (h : dirDelta c = some dd) :
    isDirChar c = true := by
  by_contra hne
  have : dirDelta c = none := (dirDelta_none_iff c).mpr (by
    cases hx : isDirChar c
    · rfl
    · exact absurd hx hne)
  rw [this] at h
  exact Option.noConfusion h

theorem walkEnd_cons (p : Pos) (c : Char) (cs : List Char) :
    walkEnd p (c :: cs) = walkEnd (stepPos p c) cs := by
  rw [walkEnd, walkEnd, walkPositions, List.getLastD_cons]

/-- The answer-walk loop succeeds with final position `p` exactly when every
character is a direction character, every visited position is valid, and the
walk ends at `p` — the decomposition the claim uses. -/
theorem followPath_iff (g : List (List Nat)) :
    ∀ (cs : List Char) (y x : Int) (p : Pos),
      followPath g y x cs = some p ↔
        ((∀ c ∈ cs, isDirChar c = true) ∧
         (∀ q ∈ walkPositions (y, x) cs, validPos g q.1 q.2 = true) ∧
         walkEnd (y, x) cs = p) := by
  intro cs
  induction cs with
  | nil =>
    intro y x p
    rw [followPath]
    constructor
    · intro h
      injection h with h
      subst h
      exact ⟨by intro c hc; simp at hc, by intro q hq; simp [walkPositions] at hq, rfl⟩
    · rintro ⟨-, -, h3⟩
      rw [← h3]
      rfl
  | cons c rest ih =>
    intro y x p
    rw [followPath]
    split
    · rename_i hc
      have hdir : isDirChar c = false := (dirDelta_none_iff c).mp hc
      constructor
      · intro h
        exact Option.noConfusion h
      · rintro ⟨h1, -, -⟩
        rw [h1 c (by simp)] at hdir
        exact Bool.noConfusion hdir
    · rename_i dd hc
      have hp2 : stepPos (y, x) c = (y + dd.1, x + dd.2) := by
        rw [stepPos, hc]
      have hwp : walkPositions (y, x) (c :: rest) =
          (y + dd.1, x + dd.2) :: walkPositions (y + dd.1, x + dd.2) rest := by
        rw [walkPositions, hp2]
      have hwe : walkEnd (y, x) (c :: rest) = walkEnd (y + dd.1, x + dd.2) rest := by
        rw [walkEnd_cons, hp2]
      by_cases hv : validPos g (y + dd.1) (x + dd.2) = true
      · rw [if_pos hv, ih (y + dd.1) (x + dd.2) p]
        constructor
        · rintro ⟨h1, h2, h3⟩
          refine ⟨?_, ?_, ?_⟩
          · intro c2 hc2
            rcases List.mem_cons.mp hc2 with hc2 | hc2
            · subst hc2; exact dirDelta_some_isDirChar hc
            · exact h1 c2 hc2
          · intro q hq
            rw [hwp] at hq
            rcases List.mem_cons.mp hq with hq | hq
            · subst hq; exact hv
            · exact h2 q hq
          · rw [hwe]; exact h3
        · rintro ⟨h1, h2, h3⟩
          refine ⟨fun c2 hc2 => h1 c2 (by simp [hc2]), ?_, ?_⟩
          · intro q hq
            exact h2 q (by rw [hwp]; simp [hq])
          · rw [← hwe]; exact h3
      · rw [if_neg hv]
        constructor
        · intro h
          exact Option.noConfusion h
        · rintro ⟨-, h2, -⟩
          exact absurd (h2 (y + dd.1, x + dd.2) (by rw [hwp]; simp)) hv

/-- C1: the Shortest Path in a Grid solver accepts exactly as the claim
states — the empty answer alone when BFS finds the destination unreachable;
otherwise exactly the all-direction-character answers whose walk from the
top-left stays on valid cells, ends at the bottom-right cell, and is no
longer than the BFS distance.  On `[[0,1],[1,0]]` only the empty string is
accepted. -/
theorem c1_grid_shortest_path :
    (∀ (g : List (List Nat)) (ans : String),
      shortestPathSolver g ans = true ↔ shortestPathClaimAccept g ans) ∧
    (∀ ans : String, shortestPathSolver [[0, 1], [1, 0]] ans = (ans == "")) := by
  constructor
  · intro g ans
    rw [shortestPathSolver, shortestPathClaimAccept]
    cases hb : bfsDist g ((gridHeight g : Int) - 1, (gridWidth g : Int) - 1) with
    | none =>
      simp only [hb]
      exact ⟨fun h => beq_iff_eq.mp h, fun h => beq_iff_eq.mpr h⟩
    | some dist =>
      simp only [hb]
      by_cases hlen : dist < ans.length
      · rw [if_pos hlen]
        constructor
        · intro h; exact absurd h (by simp)
        · rintro ⟨-, -, -, h4⟩; omega
      · rw [if_neg hlen]
        cases hf : followPath g 0 0 ans.toList with
        | none =>
          simp only [hf]
          constructor
          · intro h; exact absurd h (by simp)
          · rintro ⟨h1, h2, h3, -⟩
            have := (followPath_iff g ans.toList 0 0
              ((gridHeight g : Int) - 1, (gridWidth g : Int) - 1)).mpr ⟨h1, h2, h3⟩
            rw [hf] at this
            exact Option.noConfusion this
        | some p =>
          simp only [hf]
          obtain ⟨h1, h2, h3⟩ := (followPath_iff g ans.toList 0 0 p).mp hf
          constructor
          · intro h
            simp only [Bool.and_eq_true, beq_iff_eq] at h
            refine ⟨h1, h2, ?_, by omega⟩
            rw [h3]
            exact Prod.ext_iff.mpr ⟨h.1, h.2⟩
          · rintro ⟨-, -, h3b, -⟩
            have hp : p = ((gridHeight g : Int) - 1, (gridWidth g : Int) - 1) := by
              rw [← h3, h3b]
            simp only [Bool.and_eq_true, beq_iff_eq, hp]
            exact ⟨trivial, trivial⟩
  · intro ans
    have hb : bfsDist [[0, 1], [1, 0]]
        ((gridHeight [[0, 1], [1, 0]] : Int) - 1, (gridWidth [[0, 1], [1, 0]] : Int) - 1) =
          none := by decide
    rw [shortestPathSolver]
    simp only [hb]

/-! ### BFS correctness for the Shortest Path kind -/

theorem bfsRelax_dist (k : Nat) :
    ∀ (ns : List Pos) (d : DistMap) (q : List Pos) (p : Pos),
      (bfsRelax k ns d q).1 p = d p ∨
      ((bfsRelax k ns d q).1 p = some k ∧ d p = none ∧ p ∈ ns) := by
  intro ns
  induction ns with
  | nil => intro d q p; left; rfl
  | cons r rest ih =>
    intro d q p
    rw [bfsRelax]
    cases hr : d r with
    | some v =>
      simp only []
      rcases ih d q p with h | ⟨h1, h2, h3⟩
      · left; exact h
      · right; exact ⟨h1, h2, by simp [h3]⟩
    | none =>
      simp only []
      rcases ih (distUpdate d r k) (q ++ [r]) p with h | ⟨h1, h2, h3⟩
      · by_cases hp : p = r
        · subst hp
          right
          refine ⟨?_, hr, by simp⟩
          rw [h, distUpdate, if_pos rfl]
        · left
          rw [h, distUpdate, if_neg hp]
      · have hp : p ≠ r := by
          intro he
          subst he
          rw [distUpdate, if_pos rfl] at h2
          exact Option.noConfusion h2
        right
        refine ⟨h1, ?_, by simp [h3]⟩
        rw [distUpdate, if_neg hp] at h2
        exact h2

theorem bfsRelax_pres {k : Nat} {ns : List Pos} {d : DistMap} {q : List Pos} {p : Pos} {v : Nat}
    (h : d p = some v) : (bfsRelax k ns d q).1 p = some v := by
  rcases bfsRelax_dist k ns d q p with h1 | ⟨_, h2, _⟩
  · rw [h1, h]
  · rw [h] at h2; exact Option.noConfusion h2

theorem bfsRelax_ns_some (k : Nat) :
    ∀ (ns : List Pos) (d : DistMap) (q : List Pos), ∀ r ∈ ns, (bfsRelax k ns d q).1 r ≠ none := by
  intro ns
  induction ns with
  | nil => intro d q r hr; simp at hr
  | cons r2 rest ih =>
    intro d q r hr
    rw [bfsRelax]
    cases hr2 : d r2 with
    | some v =>
      simp only []
      rcases List.mem_cons.mp hr with he | he
      · subst he
        rw [bfsRelax_pres hr2]
        exact Option.noConfusion
      · exact ih d q r he
    | none =>
      simp only []
      rcases List.mem_cons.mp hr with he | he
      · subst he
        rw [bfsRelax_pres (show distUpdate d r k (r) = some k by rw [distUpdate, if_pos rfl])]
        exact Option.noConfusion
      · exact ih _ _ r he

theorem bfsRelax_queue (k : Nat) :
    ∀ (ns : List Pos) (d : DistMap) (q : List Pos),
      ∃ add, (bfsRelax k ns d q).2 = q ++ add ∧
        (∀ p ∈ add, (bfsRelax k ns d q).1 p = some k ∧ d p = none ∧ p ∈ ns) ∧
        (∀ p, d p = none → ((bfsRelax k ns d q).1 p ≠ none ↔ p ∈ add)) := by
  intro ns
  induction ns with
  | nil =>
    intro d q
    refine ⟨[], by simp [bfsRelax], by simp, ?_⟩
    intro p hp
    rw [bfsRelax]
    simp [hp]
  | cons r rest ih =>
    intro d q
    rw [bfsRelax]
    cases hr : d r with
    | some v =>
      simp only []
      obtain ⟨add, hq, hmem, hiff⟩ := ih d q
      refine ⟨add, hq, ?_, ?_⟩
      · intro p hp
        obtain ⟨h1, h2, h3⟩ := hmem p hp
        exact ⟨h1, h2, by simp [h3]⟩
      · exact hiff
    | none =>
      simp only []
      obtain ⟨add, hq, hmem, hiff⟩ := ih (distUpdate d r k) (q ++ [r])
      refine ⟨r :: add, by rw [hq, List.append_assoc, List.singleton_append], ?_, ?_⟩
      · intro p hp
        rcases List.mem_cons.mp hp with he | he
        · subst he
          exact ⟨bfsRelax_pres (by rw [distUpdate, if_pos rfl]), hr, by simp⟩
        · obtain ⟨h1, h2, h3⟩ := hmem p he
          have hp2 : p ≠ r := by
            intro he2
            subst he2
            rw [distUpdate, if_pos rfl] at h2
            exact Option.noConfusion h2
          rw [distUpdate, if_neg hp2] at h2
          exact ⟨h1, h2, by simp [h3]⟩
      · intro p hp
        by_cases hp2 : p = r
        · subst hp2
          constructor
          · intro; simp
          · intro
            rw [bfsRelax_pres (show distUpdate d p k p = some k by rw [distUpdate, if_pos rfl])]
            exact Option.noConfusion
        · have : distUpdate d r k p = none := by rw [distUpdate, if_neg hp2]; exact hp
          rw [hiff p this]
          constructor
          · intro h; simp [h]
          · intro h
            rcases List.mem_cons.mp h with he | he
            · exact absurd he hp2
            · exact he

theorem countP_flip {α : Type} {l : List α} {f f2 : α → Bool} {p : α}
    (hl : l.Nodup) (hp : p ∈ l) (hf : f p = true) (hg : f2 p = false)
    (hagree : ∀ q ∈ l, q ≠ p → f q = f2 q) :
    l.countP f = l.countP f2 + 1 := by
  induction l with
  | nil => simp at hp
  | cons a rest ih =>
    rw [List.countP_cons, List.countP_cons]
    rcases List.mem_cons.mp hp with he | he
    · subst he
      have hnotin : p ∉ rest := (List.nodup_cons.mp hl).1
      have hsame : rest.countP f = rest.countP f2 := by
        apply List.countP_congr
        intro q hq
        rw [hagree q (by simp [hq]) (by intro h2; subst h2; exact hnotin hq)]
      rw [hsame, hf, hg]
      simp
    · have hap : a ≠ p := by
        intro h2
        subst h2
        exact (List.nodup_cons.mp hl).1 he
      have hframe : f a = f2 a := hagree a (by simp) hap
      rw [hframe,
        ih (List.nodup_cons.mp hl).2 he (fun q hq hqp => hagree q (by simp [hq]) hqp)]
      omega

theorem validPos_mem_allCells {g : List (List Nat)} {p : Pos}
    (h : validPos g p.1 p.2 = true) : p ∈ allCells g := by
  rw [validPos] at h
  simp only [Bool.and_eq_true, decide_eq_true_eq] at h
  obtain ⟨⟨⟨⟨h1, h2⟩, h3⟩, h4⟩, -⟩ := h
  rw [allCells, List.mem_flatMap]
  have hy : p.1.toNat ∈ List.range (gridHeight g) := List.mem_range.mpr (by omega)
  have hx : p.2.toNat ∈ List.range (gridWidth g) := List.mem_range.mpr (by omega)
  exact ⟨p.1.toNat, hy, List.mem_map.mpr
    ⟨p.2.toNat, hx, by rw [Int.toNat_of_nonneg h1, Int.toNat_of_nonneg h3]⟩⟩

theorem allCells_nodup (g : List (List Nat)) : (allCells g).Nodup := by
  rw [allCells, List.nodup_flatMap]
  constructor
  · intro y _
    exact List.Nodup.map
      (fun x1 x2 h2 => by simpa using congrArg Prod.snd h2)
      (List.nodup_range (gridWidth g))
  · apply List.Pairwise.imp ?_ (List.nodup_range (gridHeight g))
    intro y1 y2 hne a ha1 ha2
    rw [List.mem_map] at ha1 ha2
    obtain ⟨x1, -, rfl⟩ := ha1
    obtain ⟨x2, -, he⟩ := ha2
    have : (y2 : Int) = (y1 : Int) := congrArg Prod.fst he
    exact hne (by exact_mod_cast this.symm)

theorem noneCount_update (g : List (List Nat)) (k : Nat) {d : DistMap} {p : Pos}
    (hmem : p ∈ allCells g) (hnone : d p = none) :
    noneCount g d = noneCount g (distUpdate d p k) + 1 := by
  rw [noneCount, noneCount]
  apply countP_flip (allCells_nodup g) hmem
  · rw [hnone]; rfl
  · rw [distUpdate, if_pos rfl]; rfl
  · intro q _ hqp
    rw [distUpdate, if_neg hqp]

theorem bfsRelax_measure (g : List (List Nat)) (k : Nat) :
    ∀ (ns : List Pos) (d : DistMap) (q : List Pos),
      (∀ r ∈ ns, validPos g r.1 r.2 = true) →
      noneCount g (bfsRelax k ns d q).1 + (bfsRelax k ns d q).2.length =
        noneCount g d + q.length := by
  intro ns
  induction ns with
  | nil => intro d q _; rfl
  | cons r rest ih =>
    intro d q hval
    rw [bfsRelax]
    cases hr : d r with
    | some v =>
      simp only []
      exact ih d q (fun r2 h2 => hval r2 (by simp [h2]))
    | none =>
      simp only []
      have hmem : r ∈ allCells g := validPos_mem_allCells (hval r (by simp))
      rw [ih (distUpdate d r k) (q ++ [r]) (fun r2 h2 => hval r2 (by simp [h2])),
        List.length_append, noneCount_update g k hmem hr]
      simp
      omega

theorem pairwise_of_forall_mem {α : Type} {R : α → α → Prop} :
    ∀ {l : List α}, (∀ a ∈ l, ∀ b ∈ l, R a b) → l.Pairwise R := by
  intro l
  induction l with
  | nil => intro; constructor
  | cons a rest ih =>
    intro h
    constructor
    · intro b hb; exact h a (by simp) b (by simp [hb])
    · exact ih (fun x hx y hy => h x (by simp [hx]) y (by simp [hy]))

theorem bfsLoop_nil (g : List (List Nat)) (d : DistMap) :
    ∀ fuel, bfsLoop g fuel d [] = d := by
  intro fuel; cases fuel <;> rfl

/-- Core BFS loop property: from a state satisfying the queue invariant, with
enough fuel for the measure, the final distance table extends the current one
and satisfies the relaxed-edges property (every visited cell's valid
neighbours are visited at distance at most one more). -/
theorem bfsLoop_end (g : List (List Nat)) :
    ∀ (fuel : Nat) (d : DistMap) (q : List Pos),
      BfsInv g d q → noneCount g d + q.length ≤ fuel →
      (∀ p v, d p = some v → bfsLoop g fuel d q p = some v) ∧
      (∀ p k, bfsLoop g fuel d q p = some k →
        ∀ r ∈ neighborsOf g p, ∃ m, bfsLoop g fuel d q r = some m ∧ m ≤ k + 1) := by
  intro fuel
  induction fuel with
  | zero =>
    intro d q hinv hm
    obtain ⟨-, -, -, hI4, -⟩ := hinv
    have hq : q = [] := List.length_eq_zero.mp (by omega)
    subst hq
    rw [bfsLoop]
    refine ⟨fun p v h => h, ?_⟩
    intro p k hk r hr
    rcases hI4 p k hk with hmem | hngh
    · simp at hmem
    · exact hngh r hr
  | succ fuel ih =>
    intro d q hinv hm
    obtain ⟨hI1, hI2, hI3, hI4, hI5⟩ := hinv
    cases q with
    | nil =>
      rw [bfsLoop]
      refine ⟨fun p v h => h, ?_⟩
      intro p k hk r hr
      rcases hI4 p k hk with hmem | hngh
      · simp at hmem
      · exact hngh r hr
    | cons h t =>
      obtain ⟨k0, hk0⟩ : ∃ k0, d h = some k0 := Option.isSome_iff_exists.mp (hI1 h (by simp))
      have hgd : (d h).getD 0 = k0 := by rw [hk0]; rfl
      have hdh : dval d h = k0 := by rw [dval, hk0]; rfl
      obtain ⟨d2, q2, hd2q2⟩ :
          ∃ d2 q2, bfsRelax (k0 + 1) (neighborsOf g h) d t = (d2, q2) := ⟨_, _, rfl⟩
      simp only [bfsLoop, hgd, hd2q2]
      have hA : ∀ p, d2 p = d p ∨ (d2 p = some (k0 + 1) ∧ d p = none ∧ p ∈ neighborsOf g h) := by
        intro p
        have h2 := bfsRelax_dist (k0 + 1) (neighborsOf g h) d t p
        rw [hd2q2] at h2
        exact h2
      have hP : ∀ p v, d p = some v → d2 p = some v := by
        intro p v hv
        have h2 : (bfsRelax (k0 + 1) (neighborsOf g h) d t).1 p = some v := bfsRelax_pres hv
        rw [hd2q2] at h2
        exact h2
      have hNS : ∀ r ∈ neighborsOf g h, d2 r ≠ none := by
        intro r hr
        have h2 := bfsRelax_ns_some (k0 + 1) (neighborsOf g h) d t r hr
        rw [hd2q2] at h2
        exact h2
      obtain ⟨add, hq2raw, haddraw, hiffraw⟩ := by
        have h2 := bfsRelax_queue (k0 + 1) (neighborsOf g h) d t
        rw [hd2q2] at h2
        exact h2
      have hq2 : q2 = t ++ add := hq2raw
      have hadd : ∀ p ∈ add, d2 p = some (k0 + 1) ∧ d p = none ∧ p ∈ neighborsOf g h := haddraw
      have hiff : ∀ p, d p = none → (d2 p ≠ none ↔ p ∈ add) := hiffraw
      have hmeas : noneCount g d2 + q2.length = noneCount g d + t.length := by
        have h2 := bfsRelax_measure g (k0 + 1) (neighborsOf g h) d t
          (fun r hr => (List.mem_filter.mp hr).2)
        rw [hd2q2] at h2
        exact h2
      have hdvt : ∀ a ∈ t, dval d2 a = dval d a := by
        intro a ha
        obtain ⟨va, hva⟩ := Option.isSome_iff_exists.mp (hI1 a (by simp [ha]))
        rw [dval, dval, hva, hP a va hva]
      have haddval : ∀ p ∈ add, dval d2 p = k0 + 1 := by
        intro p hp
        rw [dval, (hadd p hp).1]
        rfl
      have hhead : ∀ a ∈ t, k0 ≤ dval d a := by
        intro a ha
        have h2 := (List.pairwise_cons.mp hI2).1 a ha
        omega
      have hInv2 : BfsInv g d2 q2 := by
        refine ⟨?_, ?_, ?_, ?_, ?_⟩
        · -- I1: queue members visited
          intro p hp
          rw [hq2] at hp
          rcases List.mem_append.mp hp with hp | hp
          · obtain ⟨va, hva⟩ := Option.isSome_iff_exists.mp (hI1 p (by simp [hp]))
            rw [hP p va hva]
            rfl
          · rw [(hadd p hp).1]
            rfl
        · -- I2: queue values sorted
          rw [hq2, List.pairwise_append]
          refine ⟨?_, ?_, ?_⟩
          · apply List.Pairwise.imp_of_mem ?_ hI2.of_cons
            intro a b ha hb hab
            rw [hdvt a ha, hdvt b hb]
            exact hab
          · apply pairwise_of_forall_mem
            intro a ha b hb
            rw [haddval a ha, haddval b hb]
          · intro a ha b hb
            rw [hdvt a ha, haddval b hb]
            have h2 := hI3 h (by simp) a (by simp [ha])
            omega
        · -- I3: queue values spread at most one
          intro a ha b hb
          rw [hq2] at ha hb
          rcases List.mem_append.mp ha with ha2 | ha2 <;>
            rcases List.mem_append.mp hb with hb2 | hb2
          · rw [hdvt a ha2, hdvt b hb2]
            exact hI3 a (by simp [ha2]) b (by simp [hb2])
          · rw [hdvt a ha2, haddval b hb2]
            have h2 := hhead a ha2
            omega
          · rw [haddval a ha2, hdvt b hb2]
            have h2 := hI3 h (by simp) b (by simp [hb2])
            omega
          · rw [haddval a ha2, haddval b hb2]
            omega
        · -- I4: visited cells are queued or fully relaxed
          intro p kp hp2
          rcases hA p with heq | ⟨hnew1, hnew2, hnew3⟩
          · have hdp : d p = some kp := by rw [← heq]; exact hp2
            rcases hI4 p kp hdp with hmemq | hngh
            · rcases List.mem_cons.mp hmemq with he | he
              · subst he
                have hkp : kp = k0 := by
                  rw [hk0] at hdp
                  exact (Option.some.injEq _ _ ▸ hdp.symm : _)
                right
                intro r hr
                have h2 := hNS r hr
                obtain ⟨m, hmr⟩ : ∃ m, d2 r = some m := by
                  cases hdr : d2 r with
                  | none => exact absurd hdr h2
                  | some m => exact ⟨m, rfl⟩
                refine ⟨m, hmr, ?_⟩
                rcases hA r with heq2 | ⟨hnew4, -, -⟩
                · have hdr2 : d r = some m := by rw [← heq2]; exact hmr
                  have h3 := hI5 r m hdr2 p (by simp)
                  omega
                · rw [hmr] at hnew4
                  have : m = k0 + 1 := by
                    injection hnew4.symm with h4
                    omega
                  omega
              · left
                rw [hq2]
                exact List.mem_append.mpr (Or.inl he)
            · right
              intro r hr
              obtain ⟨m, hm1, hm2⟩ := hngh r hr
              exact ⟨m, hP r m hm1, hm2⟩
          · have hkp : kp = k0 + 1 := by
              rw [hp2] at hnew1
              injection hnew1.symm with h4
              omega
            left
            rw [hq2]
            refine List.mem_append.mpr (Or.inr ?_)
            exact (hiff p hnew2).mp (by rw [hp2]; exact Option.noConfusion)
        · -- I5: visited values at most queue values plus one
          intro p kp hp2 a ha
          rw [hq2] at ha
          rcases hA p with heq | ⟨hnew1, -, -⟩
          · have hdp : d p = some kp := by rw [← heq]; exact hp2
            rcases List.mem_append.mp ha with ha2 | ha2
            · rw [hdvt a ha2]
              exact hI5 p kp hdp a (by simp [ha2])
            · rw [haddval a ha2]
              have h2 := hI5 p kp hdp h (by simp)
              omega
          · have hkp : kp = k0 + 1 := by
              rw [hp2] at hnew1
              injection hnew1.symm with h4
              omega
            rcases List.mem_append.mp ha with ha2 | ha2
            · rw [hdvt a ha2]
              have h2 := hhead a ha2
              omega
            · rw [haddval a ha2]
              omega
      have hmeas2 : noneCount g d2 + q2.length ≤ fuel := by
        simp only [List.length_cons] at hm
        omega
      obtain ⟨ihP, ihE⟩ := ih d2 q2 hInv2 hmeas2
      exact ⟨fun p v hv => ihP p v (hP p v hv), ihE⟩

theorem allCells_length (g : List (List Nat)) :
    (allCells g).length = gridHeight g * gridWidth g := by
  rw [allCells]
  simp [List.length_flatMap, Function.comp_def, List.map_const', mul_comm]

theorem noneCount_le (g : List (List Nat)) (d : DistMap) :
    noneCount g d ≤ gridHeight g * gridWidth g := by
  rw [noneCount, ← allCells_length g]
  exact List.countP_le_length _

/-- The seed state of the BFS (distance 0 at the origin, queue `[(0,0)]`)
satisfies the loop invariant. -/
theorem bfsInit_inv (g : List (List Nat)) :
    BfsInv g (distUpdate (fun _ => none) (0, 0) 0) [(0, 0)] := by
  have hval : ∀ (p : Pos) (k : Nat),
      distUpdate (fun _ => none) (0, 0) 0 p = some k → p = (0, 0) ∧ k = 0 := by
    intro p k hp
    by_cases h : p = (0, 0)
    · subst h
      rw [distUpdate, if_pos rfl] at hp
      injection hp with h2
      exact ⟨rfl, h2.symm⟩
    · rw [distUpdate, if_neg h] at hp
      exact Option.noConfusion hp
  refine ⟨?_, ?_, ?_, ?_, ?_⟩
  · intro p hp
    simp only [List.mem_singleton] at hp
    subst hp
    rw [distUpdate, if_pos rfl]
    rfl
  · exact List.pairwise_singleton _ _
  · intro a ha b hb
    simp only [List.mem_singleton] at ha hb
    subst ha
    subst hb
    omega
  · intro p k hp
    left
    simp [(hval p k hp).1]
  · intro p k hp a _
    have h2 := (hval p k hp).2
    omega

theorem dirDelta_cases {c : Char} {dd : Int × Int} (h : dirDelta c = some dd) :
    dd = (-1, 0) ∨ dd = (1, 0) ∨ dd = (0, -1) ∨ dd = (0, 1) := by
  rw [dirDelta.eq_def] at h
  split at h <;> simp_all

theorem step_mem_neighbors {g : List (List Nat)} {y x : Int} {dd : Int × Int}
    (hdd : dd = (-1, 0) ∨ dd = (1, 0) ∨ dd = (0, -1) ∨ dd = (0, 1))
    (hv : validPos g (y + dd.1) (x + dd.2) = true) :
    (y + dd.1, x + dd.2) ∈ neighborsOf g (y, x) := by
  rw [neighborsOf, List.mem_filter]
  refine ⟨?_, hv⟩
  rcases hdd with h | h | h | h <;> subst h <;> simp <;> omega

/-- From the relaxed-edges property, any valid walk's endpoint has an
assigned BFS distance at most the start's distance plus the walk's length. -/
theorem bfs_walk_bound (g : List (List Nat)) (dF : DistMap)
    (hEnd : ∀ p k, dF p = some k → ∀ r ∈ neighborsOf g p, ∃ m, dF r = some m ∧ m ≤ k + 1) :
    ∀ (cs : List Char) (y x : Int) (k : Nat) (p : Pos),
      dF (y, x) = some k → followPath g y x cs = some p →
      ∃ m, dF p = some m ∧ m ≤ k + cs.length := by
  intro cs
  induction cs with
  | nil =>
    intro y x k p hk hf
    rw [followPath] at hf
    injection hf with hf
    subst hf
    exact ⟨k, hk, by simp⟩
  | cons c rest ih =>
    intro y x k p hk hf
    rw [followPath] at hf
    split at hf
    · exact Option.noConfusion hf
    · rename_i dd hc
      split at hf
      · rename_i hv
        have hmem := step_mem_neighbors (dirDelta_cases hc) hv
        obtain ⟨m, hm, hmb⟩ := hEnd (y, x) k hk (y + dd.1, x + dd.2) hmem
        obtain ⟨mf, hmf, hmfb⟩ := ih (y + dd.1) (x + dd.2) m p hm hf
        refine ⟨mf, hmf, ?_⟩
        simp only [List.length_cons]
        omega
      · exact Option.noConfusion hf

/-- C9: every accepted non-empty answer for the Shortest Path kind has length
exactly the BFS distance from the top-left to the bottom-right cell: the
solver rejects longer answers, and any accepted answer describes a valid walk
to the destination, which BFS relaxation bounds from below. -/
theorem c9_accepted_path_length_exact :
    ∀ (g : List (List Nat)) (ans : String),
      shortestPathSolver g ans = true → ans ≠ "" →
      ∃ dist, bfsDist g ((gridHeight g : Int) - 1, (gridWidth g : Int) - 1) = some dist ∧
        ans.length = dist := by
  intro g ans hacc hne
  rw [shortestPathSolver] at hacc
  cases hb : bfsDist g ((gridHeight g : Int) - 1, (gridWidth g : Int) - 1) with
  | none =>
    simp only [hb] at hacc
    exact absurd (beq_iff_eq.mp hacc) hne
  | some dist =>
    simp only [hb] at hacc
    refine ⟨dist, rfl, ?_⟩
    by_cases hlen : dist < ans.length
    · rw [if_pos hlen] at hacc
      exact absurd hacc (by simp)
    · rw [if_neg hlen] at hacc
      cases hf : followPath g 0 0 ans.toList with
      | none =>
        simp only [hf] at hacc
        exact absurd hacc (by simp)
      | some p =>
        simp only [hf, Bool.and_eq_true, beq_iff_eq] at hacc
        have hloop := bfsLoop_end g (gridHeight g * gridWidth g + 1)
          (distUpdate (fun _ => none) (0, 0) 0) [(0, 0)] (bfsInit_inv g)
          (by
            have h2 := noneCount_le g (distUpdate (fun _ => none) (0, 0) 0)
            simp only [List.length_cons, List.length_nil]
            omega)
        obtain ⟨hpres, hEnd⟩ := hloop
        have hEnd2 : ∀ (p2 : Pos) (k : Nat), bfsDist g p2 = some k →
            ∀ r ∈ neighborsOf g p2, ∃ m, bfsDist g r = some m ∧ m ≤ k + 1 := by
          rw [bfsDist]
          exact hEnd
        have h00 : bfsDist g (0, 0) = some 0 := by
          rw [bfsDist]
          exact hpres (0, 0) 0 (by rw [distUpdate, if_pos rfl])
        obtain ⟨m, hm, hmb⟩ := bfs_walk_bound g (bfsDist g) hEnd2 ans.toList 0 0 0 p h00 hf
        have hp : p = ((gridHeight g : Int) - 1, (gridWidth g : Int) - 1) :=
          Prod.ext_iff.mpr ⟨hacc.1, hacc.2⟩
        rw [hp, hb] at hm
        injection hm with hm
        have hlen2 : ans.toList.length = ans.length := rfl
        omega

theorem c9_accepted_path_length_exact_witness :
    ∃ dist, bfsDist [[0, 0], [0, 0]]
        ((gridHeight [[0, 0], [0, 0]] : Int) - 1, (gridWidth [[0, 0], [0, 0]] : Int) - 1) =
          some dist ∧ ("DR" : String).length = dist :=
  c9_accepted_path_length_exact [[0, 0], [0, 0]] "DR" (by decide) (by decide)

/-- C7 counterexample: for the Sanitize Parentheses kind — a kind whose
canonical answer is a list — the empty answer string canonicalizes to the
one-element list containing the empty string, not to an empty list; and on
the input `"("`, whose non-empty reference set is `[""]`, the empty answer is
accepted rather than rejected by an element-count mismatch. -/
theorem c7_sanitize_empty_counterexample :
    sanitizeCanon "" = [[]] ∧ sanitizeSolver "(" "" = true := by
  constructor <;> decide

/-- C7 (amended): Find All Valid Math Expressions filters out empty elements
(`filterTruthy`), so `""` and `"[]"` canonicalize to the empty list and are
accepted exactly when the recomputed reference set is empty; Sanitize
Parentheses does not filter, so `""` canonicalizes to `[""]` and the empty
answer is accepted exactly when the reference set is exactly `[""]`. -/
theorem c7_empty_answer_canonicalization_amended :
    mathExprCanon "" = [] ∧ mathExprCanon "[]" = [] ∧
    (∀ (num : List Char) (target : Int), num ≠ [] →
      (mathExprSolver (num, target) "" = true ↔ mathExprResult num target = []) ∧
      (mathExprSolver (num, target) "[]" = true ↔ mathExprResult num target = [])) ∧
    sanitizeCanon "" = [[]] ∧
    (∀ data : String,
      sanitizeSolver data "" = true ↔ sanitizeRes data.toList = [[]]) := by
  have hmm : ∀ (num : List Char) (target : Int), num ≠ [] → ∀ ans : String,
      mathExprCanon ans = [] →
      (mathExprSolver (num, target) ans = true ↔ mathExprResult num target = []) := by
    intro num target hnum ans hcanon
    obtain ⟨c, rest, rfl⟩ : ∃ c rest, num = c :: rest := by
      cases num with
      | nil => exact absurd rfl hnum
      | cons c rest => exact ⟨c, rest, rfl⟩
    simp only [mathExprSolver, hcanon, List.isEmpty_cons, List.length_nil, Bool.false_eq_true,
      if_false]
    by_cases hres : mathExprResult (c :: rest) target = []
    · simp [hres]
    · rw [if_pos (by
        simp only [ne_eq, List.length_eq_zero]
        exact hres)]
      simp only [Bool.false_eq_true, false_iff]
      exact hres
  refine ⟨by decide, by decide, ?_, by decide, ?_⟩
  · intro num target hnum
    exact ⟨hmm num target hnum "" (by decide), hmm num target hnum "[]" (by decide)⟩
  · intro data
    simp only [sanitizeSolver, show sanitizeCanon "" = [[]] from by decide]
    by_cases hlen : (sanitizeRes data.toList).length = 1
    · obtain ⟨r, hr⟩ := List.length_eq_one.mp hlen
      rw [hr]
      simp only [List.length_cons, List.length_nil, List.all_cons, List.all_nil, Bool.and_true]
      rw [if_neg (by simp)]
      constructor
      · intro hc
        have : r ∈ ([[]] : List (List Char)) := by
          rw [List.contains_eq_any_beq] at hc
          simp only [List.any_cons, List.any_nil, Bool.or_false, beq_iff_eq] at hc
          simp [hc]
        simp only [List.mem_singleton] at this
        rw [this]
      · intro h
        have : r = [] := by
          have := congrArg (fun l => List.getD l 0 ['x']) h
          simpa using this
        rw [this]
        decide
    · rw [if_pos (by simpa using (by omega : ¬(1 = (sanitizeRes data.toList).length)))]
      simp only [Bool.false_eq_true, false_iff]
      intro h
      rw [h] at hlen
      simp at hlen

theorem c7_empty_answer_canonicalization_amended_witness :
    (mathExprSolver (['1'], 0) "" = true ↔ mathExprResult ['1'] 0 = []) ∧
    (mathExprSolver (['1'], 0) "[]" = true ↔ mathExprResult ['1'] 0 = []) :=
  c7_empty_answer_canonicalization_amended.2.2.1 ['1'] 0 (by decide)

theorem c10_two_coloring_untouched_vertices_witness :
    coloringCheck (3, [(0, 1)]) [some 0, some 1, some 5] =
      coloringCheck (3, [(0, 1)]) [some 0, some 1, none] :=
  c10_two_coloring_untouched_vertices 3 [(0, 1)] [some 0, some 1, some 5] [some 0, some 1, none]
    (by decide) (by decide)
    (by
      rintro v ⟨e, he, hor⟩
      simp only [List.mem_singleton] at he
      subst he
      rcases hor with h | h <;> (subst h; rfl))

end Contracts
